import Mathlib

/-!
Verification development for the block-segmentation / video pipeline of the
repository (src/src/image_group_processer.ts and src/src/new_video.ts).

The TypeScript sources are shallow-embedded below.  Decoding an image file,
canvas resampling and PNG round-trips are external collaborators of the core
(per the specification); the embedding therefore starts from decoded
RGBA pixel buffers (PixelGrid) and takes canvas resampling as an explicit
function parameter where the source relies on ctx.drawImage with a target
size.  Every loop of the source is translated to a structurally recursive
function (loops that run until a work list is exhausted carry an explicit
fuel argument that is provably sufficient), so that all definitions are
executable and kernel-reducible.

JavaScript numbers met by the zIndex bookkeeping of new_video.ts are either
integers or -Infinity (the latter arises from Math.max() applied to an empty
spread); the type ZVal models exactly these reachable values.
-/

/-- Coordinates of a pixel, as signed integers (JavaScript computes x-1 and
y-1 for neighbour lookups, which go negative at the border). -/
abbrev Coord := ℤ × ℤ

/-- Decoded RGBA pixel, one byte per channel (source: Pixel of image.ts). -/
structure Pixel where
  r : Fin 256
  g : Fin 256
  b : Fin 256
  a : Fin 256
deriving DecidableEq

/-- Decoded image: width, height and a flat RGBA byte buffer indexed by
(y * width + x) * 4 + channel, as produced by ctx.getImageData. -/
structure PixelGrid where
  width : ℕ
  height : ℕ
  data : ℕ → Fin 256

/-- Channel read at pixel (x, y) of a grid. -/
def PixelGrid.chan (g : PixelGrid) (x y c : ℕ) : Fin 256 :=
  g.data ((y * g.width + x) * 4 + c)

/-- JavaScript numeric values reachable by the zIndex bookkeeping of
new_video.ts: an integer, or -Infinity (what Math.max() returns on an empty
argument list).  No other non-finite value is reachable there. -/
inductive ZVal where
  | negInf : ZVal
  | int : ℤ → ZVal
deriving DecidableEq

/-- Addition on ZVal, following IEEE: -Infinity plus anything reachable is
-Infinity. -/
def ZVal.add : ZVal → ZVal → ZVal
  | negInf, _ => negInf
  | int _, negInf => negInf
  | int a, int b => int (a + b)

/-- Boolean comparison a less-or-equal b on ZVal (IEEE order on the
reachable values). -/
def ZVal.ble : ZVal → ZVal → Bool
  | negInf, _ => true
  | int _, negInf => false
  | int a, int b => a ≤ b

/-- Boolean comparison a strictly-less b on ZVal. -/
def ZVal.blt : ZVal → ZVal → Bool
  | negInf, negInf => false
  | negInf, int _ => true
  | int _, negInf => false
  | int a, int b => a < b

/-- Math.min on ZVal. -/
def ZVal.minv (a b : ZVal) : ZVal := if ZVal.ble a b then a else b

/-- Math.max on ZVal. -/
def ZVal.maxv (a b : ZVal) : ZVal := if ZVal.ble a b then b else a

/-- Connected region of same-coloured pixels (source: interface Block).
The colour is kept as the packed 24-bit value r*65536 + g*256 + b; the
source formats it as a hex string "#rrggbb", a bijective encoding of the
same data. -/
structure Block where
  color : ℕ
  minX : ℤ
  minY : ℤ
  maxX : ℤ
  maxY : ℤ
  width : ℤ
  height : ℤ
  area : ℕ
  pixels : List Coord
  zIndex : ZVal
deriving DecidableEq

/-- Frame classification (source: enum FrameType). -/
inductive FrameType where
  | I_FRAME : FrameType
  | P_FRAME : FrameType
deriving DecidableEq

/-- Entity tag attached to a frame's blocks; the source uses the strings
"video_frame_N" (keyframes) and "video_frame_N_diff" (delta frames), which
this pair encodes bijectively. -/
structure Tag where
  num : ℕ
  isDiffTag : Bool
deriving DecidableEq

/-- Per-frame processing record (source: interface FrameInfo; the source
field diffRatio is named diffRatioVal here). -/
structure FrameInfo where
  frameNumber : ℕ
  frameType : FrameType
  diffRatioVal : ℚ
  blocks : List Block
  removeEntities : List Tag
  coveredEntities : List Tag
deriving DecidableEq

/-- Diff comparison mode (source: enum DiffMode). -/
inductive DiffMode where
  | IFRAME : DiffMode
  | PREVIOUS : DiffMode
deriving DecidableEq

/-- Sort mode of processAndGroupImage (source: options.sortBy). -/
inductive SortBy where
  | area : SortBy
  | y_x : SortBy
deriving DecidableEq

/-! ## Segmentation (processAndGroupImage, steps 2 and 3) -/

/-- Alpha byte at an (in-range) coordinate. -/
def alphaOf (g : PixelGrid) (p : Coord) : ℕ :=
  (g.chan p.1.toNat p.2.toNat 3).val

/-- Packed 24-bit colour at an (in-range) coordinate; the source's colour
key "#rrggbb" encodes the same value. -/
def colorOf (g : PixelGrid) (p : Coord) : ℕ :=
  (g.chan p.1.toNat p.2.toNat 0).val * 65536 +
    (g.chan p.1.toNat p.2.toNat 1).val * 256 +
    (g.chan p.1.toNat p.2.toNat 2).val

/-- Coordinates of the pixels with nonzero alpha (the opaque pixels), in the
source's scan order: y outer, x inner; pixels with alpha 0 are skipped. -/
def solidCoords (g : PixelGrid) : List Coord :=
  (List.range g.height).flatMap fun (y : ℕ) =>
    (List.range g.width).filterMap fun (x : ℕ) =>
      if alphaOf g ((x : ℤ), (y : ℤ)) ≠ 0 then some ((x : ℤ), (y : ℤ)) else none

/-- First-occurrence deduplication, keeping insertion order: the iteration
order of the JavaScript Maps keyed by colour. -/
def dedupKF : List ℕ → List ℕ → List ℕ
  | _, [] => []
  | seen, c :: cs => if c ∈ seen then dedupKF seen cs else c :: dedupKF (c :: seen) cs

/-- Colour keys of pixelMap in insertion order. -/
def colorsOf (g : PixelGrid) : List ℕ :=
  dedupKF [] ((solidCoords g).map (colorOf g))

/-- Bucket of pixelMap: the opaque coordinates of one colour, in scan
order. -/
def bucketOf (g : PixelGrid) (c : ℕ) : List Coord :=
  (solidCoords g).filter fun p => colorOf g p = c

/-- Four-neighbourhood in the source's push order. -/
def neighborsOf (p : Coord) : List Coord :=
  [(p.1 - 1, p.2), (p.1 + 1, p.2), (p.1, p.2 - 1), (p.1, p.2 + 1)]

/-- Breadth-first traversal of one colour bucket (source: the while loop over
queue inside processAndGroupImage).  P is the coordinate set of the bucket,
visited the shared visited set, queue the FIFO work list and acc the pixels
already dequeued into the component.  The fuel argument makes the recursion
structural; callers pass at least (P minus visited).card + queue.length,
which is proved sufficient, so the fuel-exhaustion branch is unreachable. -/
def bfsAux (P : Finset Coord) : ℕ → Finset Coord → List Coord → List Coord →
    Finset Coord × List Coord
  | _, visited, [], acc => (visited, acc)
  | 0, visited, _ :: _, acc => (visited, acc)
  | fuel + 1, visited, p :: rest, acc =>
      let ns := (neighborsOf p).filter fun n => n ∉ visited ∧ n ∈ P
      bfsAux P fuel (visited ∪ ns.toFinset) (rest ++ ns) (acc ++ [p])

/-- Seed loop of the segmentation: one breadth-first traversal per bucket
coordinate not yet visited; each traversal contributes one component. -/
def componentsAux (P : Finset Coord) : List Coord → Finset Coord → List (List Coord)
  | [], _ => []
  | s :: rest, visited =>
      if s ∈ visited then componentsAux P rest visited
      else
        let r := bfsAux P (P.card + 1) (insert s visited) [s] []
        r.2 :: componentsAux P rest r.1

/-- Bounding box (minX, minY, maxX, maxY) of a pixel list.  The source folds
from Infinity / -Infinity; for the nonempty lists produced by the code this
equals folding from the first element.  The empty case is unreachable in the
code (components and merge results are nonempty). -/
def bboxOf (ps : List Coord) : ℤ × ℤ × ℤ × ℤ :=
  match ps with
  | [] => (0, 0, -1, -1)
  | q :: rest =>
      (rest.foldl (fun m p => min m p.1) q.1,
       rest.foldl (fun m p => min m p.2) q.2,
       rest.foldl (fun m p => max m p.1) q.1,
       rest.foldl (fun m p => max m p.2) q.2)

/-- Block built from one connected component (source: blocks.push literal). -/
def mkBlock (c : ℕ) (comp : List Coord) : Block :=
  let bb := bboxOf comp
  { color := c, minX := bb.1, minY := bb.2.1, maxX := bb.2.2.1, maxY := bb.2.2.2,
    width := bb.2.2.1 - bb.1 + 1, height := bb.2.2.2 - bb.2.1 + 1,
    area := comp.length, pixels := comp, zIndex := .int 0 }

/-- Segmentation: one Block per maximal 4-connected same-colour component of
the opaque pixels (source: steps 2 and 3 of processAndGroupImage). -/
def segmentGrid (g : PixelGrid) : List Block :=
  (colorsOf g).flatMap fun c =>
    (componentsAux (bucketOf g c).toFinset (bucketOf g c) ∅).map (mkBlock c)

/-! ## Block merge optimizer (image_group_processer.ts) -/

/-- Adjacency test (source: canMergeBlocks): same colour, and some pixel of
block2 has a 4-neighbour among block1's pixels. -/
def canMergeBlocks (b1 b2 : Block) : Bool :=
  decide (b1.color = b2.color) &&
    b2.pixels.any fun p => (neighborsOf p).any fun n => decide (n ∈ b1.pixels)

/-- Merge of two blocks (source: mergeBlocks): pixel lists concatenated,
bounding box recomputed over the union, colour of the first block kept,
zIndex the smaller of the two. -/
def mergeBlocks (b1 b2 : Block) : Block :=
  let merged := b1.pixels ++ b2.pixels
  let bb := bboxOf merged
  { color := b1.color, minX := bb.1, minY := bb.2.1, maxX := bb.2.2.1, maxY := bb.2.2.2,
    width := bb.2.2.1 - bb.1 + 1, height := bb.2.2.2 - bb.2.1 + 1,
    area := merged.length, pixels := merged,
    zIndex := ZVal.minv b1.zIndex b2.zIndex }

/-- First mergeable pair inside one colour group, in the source's scan order
(outer index ascending, inner index after the outer).  Group entries carry
their position in the full block list, mirroring the object identity the
source uses for removal. -/
def scanPairs : List (ℕ × Block) → Option ((ℕ × Block) × (ℕ × Block))
  | [] => none
  | p :: rest =>
      match rest.find? (fun q => canMergeBlocks p.2 q.2) with
      | some q => some (p, q)
      | none => scanPairs rest

/-- One greedy merge attempt (source: tryMergeOperation): group blocks by
colour in first-occurrence order, take the first mergeable pair, and replace
the two blocks by their merge (removal by position models the source's
removal by object identity). -/
def tryMergeOperation (bs : List Block) : Option (List Block) :=
  ((dedupKF [] (bs.map (·.color))).findSome? fun c =>
      scanPairs ((bs.enum).filter fun ib => ib.2.color = c)).map
    fun pq =>
      ((bs.enum).filter fun ib => ib.1 ≠ pq.1.1 ∧ ib.1 ≠ pq.2.1).map (·.2)
        ++ [mergeBlocks pq.1.2 pq.2.2]

/-- Cost of a block list (source: calculateCost): 100 per block minus 0.1
per covered pixel of area. -/
def calculateCost (bs : List Block) : ℚ :=
  100 * bs.length - (bs.map fun b => (b.area : ℚ)).sum / 10

/-- Phase-1 greedy loop (source: the while(true) loop of
localSearchOptimization), with structural fuel; each successful merge
strictly shrinks the list, so fuel bs.length + 1 is provably sufficient. -/
def greedyAux : ℕ → List Block → List Block
  | 0, bs => bs
  | fuel + 1, bs =>
      match tryMergeOperation bs with
      | none => bs
      | some bs' => greedyAux fuel bs'

/-- Phase 1 run to its fixpoint. -/
def greedyMergeLoop (bs : List Block) : List Block := greedyAux (bs.length + 1) bs

/-- One phase-2 iteration (source: the body of the for loop): even
iterations attempt another merge and accept it only on a strict cost
improvement; odd iterations are the inert split-exploration hook and
propose nothing. -/
def phase2Step (st : List Block × ℚ) (iter : ℕ) : List Block × ℚ :=
  let neighbor := if iter % 2 = 0 then tryMergeOperation st.1 else none
  match neighbor with
  | none => st
  | some nb => if calculateCost nb < st.2 then (nb, calculateCost nb) else st

/-- Dense zIndex reassignment by list position (source: the forEach at the
end of localSearchOptimization and after sorting). -/
def reindexAux : ℕ → List Block → List Block
  | _, [] => []
  | n, b :: rest => { b with zIndex := .int n } :: reindexAux (n + 1) rest

/-- Reassign zIndex 0..n-1 along the list. -/
def reindexZ (bs : List Block) : List Block := reindexAux 0 bs

/-- Two-phase merge optimizer (source: localSearchOptimization): phase-1
greedy merging to a fixpoint, then maxIterations phase-2 local-search steps,
then dense zIndex reassignment. -/
def localSearchOptimization (bs : List Block) (maxIterations : ℕ) : List Block :=
  let g := greedyMergeLoop bs
  reindexZ ((List.range maxIterations).foldl phase2Step (g, calculateCost g)).1

/-- Stable insertion of x before the first element y with le x y. -/
def insertLE {α : Type} (le : α → α → Bool) (x : α) : List α → List α
  | [] => [x]
  | y :: ys => if le x y then x :: y :: ys else y :: insertLE le x ys

/-- Stable sort.  For a total boolean preorder a stable sort is unique, so
this insertion sort computes exactly the list JavaScript's stable
Array.prototype.sort produces for the comparators below. -/
def stableSortBy {α : Type} (le : α → α → Bool) : List α → List α
  | [] => []
  | x :: xs => insertLE le x (stableSortBy le xs)

/-- Sort orders of step 4 of processAndGroupImage: area descending, or
(minY, minX) lexicographic ascending, stable in both cases. -/
def blockLE (sb : SortBy) (a b : Block) : Bool :=
  match sb with
  | .area => decide (b.area ≤ a.area)
  | .y_x => decide (a.minY < b.minY ∨ (a.minY = b.minY ∧ a.minX ≤ b.minX))

/-- Core of processAndGroupImage after decoding: segmentation, sort, dense
zIndex assignment, then the optimizer with its hard-coded budget of 1000
iterations.  Image loading and canvas resizing are external collaborators
and happen before this function's input is formed. -/
def processAndGroupImage (g : PixelGrid) (sb : SortBy) : List Block :=
  localSearchOptimization (reindexZ (stableSortBy (blockLE sb) (segmentGrid g))) 1000

/-! ## Frame diff engine (new_video.ts: generateDiffImage) -/

/-- Error taxonomy of the specification for the diff engine.  The embedded
function below models every exit of the source, which never raises this
error. -/
inductive DiffError where
  | dimensionMismatch : DiffError
deriving DecidableEq

/-- Result of one frame diff (source: the object literal returned by
generateDiffImage; the source field diffRatio is named diffRatioVal). -/
structure DiffResult where
  width : ℕ
  height : ℕ
  diffPixels : List (Coord × Pixel)
  diffRatioVal : ℚ
deriving DecidableEq

/-- Pixel number i of a flat RGBA buffer. -/
def pixelAt (g : PixelGrid) (i : ℕ) : Pixel :=
  ⟨g.data (i * 4), g.data (i * 4 + 1), g.data (i * 4 + 2), g.data (i * 4 + 3)⟩

/-- Largest absolute channel difference over r, g, b; alpha is ignored
(source: the inlined colour comparison). -/
def maxChanDiff (p q : Pixel) : ℕ :=
  max (max ((p.r.val : ℤ) - q.r.val).natAbs ((p.g.val : ℤ) - q.g.val).natAbs)
    ((p.b.val : ℤ) - q.b.val).natAbs

/-- Drawing an image onto a canvas of size w by h (ctx.drawImage): the
identity on the pixel data when the sizes already agree, otherwise external
canvas resampling, supplied by the caller as resample. -/
def drawResample (resample : PixelGrid → ℕ → ℕ → ℕ → Fin 256)
    (img : PixelGrid) (w h : ℕ) : PixelGrid :=
  if img.width = w ∧ img.height = h then img else ⟨w, h, resample img w h⟩

/-- Body of generateDiffImage after decoding: the candidate frame is drawn
onto a canvas of the reference frame's dimensions, then compared pixel by
pixel; a pixel is changed iff the largest channel difference strictly
exceeds the threshold, and changed pixels are emitted with the candidate's
value in scan order. -/
def diffResultOf (resample : PixelGrid → ℕ → ℕ → ℕ → Fin 256)
    (prev current : PixelGrid) (t : ℤ) : DiffResult :=
  let w := prev.width
  let h := prev.height
  let cur : PixelGrid := drawResample resample current w h
  let changed := (List.range (w * h)).filterMap fun i =>
    if ((maxChanDiff (pixelAt prev i) (pixelAt cur i) : ℤ) > t) then
      some ((((i % w : ℕ) : ℤ), ((i / w : ℕ) : ℤ)), pixelAt cur i)
    else none
  { width := w, height := h, diffPixels := changed,
    diffRatioVal := (changed.length : ℚ) / ((w * h : ℕ) : ℚ) }

/-- Embedded generateDiffImage.  The source function can in principle fail
(modelled by the Except layer), but contains no dimension validation and no
throw site of its own, so every run returns ok.  The reference-frame cache
of the source only short-circuits re-decoding of identical input and does
not change the computed result, so it has no pure-level content. -/
def generateDiffImage (resample : PixelGrid → ℕ → ℕ → ℕ → Fin 256)
    (prev current : PixelGrid) (t : ℤ) : Except DiffError DiffResult :=
  .ok (diffResultOf resample prev current t)

/-- Sparse diff image materialized for segmentation (source:
createDiffImageFile followed by reading it back): every pixel is fully
transparent zero except the changed pixels, which carry the candidate's
value.  The PNG round-trip of the source is lossless. -/
def buildDiffGrid (w h : ℕ) (pixels : List (Coord × Pixel)) : PixelGrid :=
  { width := w, height := h,
    data := fun idx =>
      let pi := idx / 4
      let c := idx % 4
      match pixels.find? (fun e => e.1 = (((pi % w : ℕ) : ℤ), ((pi / w : ℕ) : ℤ))) with
      | some e => if c = 0 then e.2.r else if c = 1 then e.2.g else if c = 2 then e.2.b else e.2.a
      | none => 0 }

/-! ## Video frame pipeline (new_video.ts: processVideoFrames) -/

/-- Mutable state threaded through the frame loop of processVideoFrames:
the last keyframe, the previous frame, and the running zIndex offset
maxZIndexUsed. -/
structure VidState where
  lastIFrame : Option PixelGrid
  prevFrame : Option PixelGrid
  maxZ : ZVal

/-- Offset a block's zIndex by the running maximum (source:
block.zIndex += maxZIndexUsed). -/
def addZ (z : ZVal) (b : Block) : Block := { b with zIndex := ZVal.add b.zIndex z }

/-- Math.max over the zIndex values of a block list; on an empty list this
is -Infinity, exactly as Math.max() with an empty spread. -/
def maxZOf (bs : List Block) : ZVal :=
  bs.foldl (fun m b => ZVal.maxv m b.zIndex) ZVal.negInf

/-- Reference frame a non-scheduled frame is diffed against: the last
keyframe in IFRAME mode, the previous frame in PREVIOUS mode (source: the
compareFramePath selection).  The getD fallback is unreachable, because the
branch only runs when the matched option is populated. -/
def refFrame (mode : DiffMode) (st : VidState) (g : PixelGrid) : PixelGrid :=
  (match mode with
    | .IFRAME => st.lastIFrame
    | .PREVIOUS => st.prevFrame).getD g

/-- Blocks of a delta frame: the sparse diff image of the reference and the
current frame, materialized and segmented (source: the createDiffImageFile
plus processAndGroupImage sequence of the P-frame branch). -/
def deltaBlocksOf (resample : PixelGrid → ℕ → ℕ → ℕ → Fin 256) (cthr : ℤ)
    (ref g : PixelGrid) : List Block :=
  processAndGroupImage
    (buildDiffGrid (diffResultOf resample ref g cthr).width
      (diffResultOf resample ref g cthr).height
      (diffResultOf resample ref g cthr).diffPixels) .area

/-- One iteration of the frame loop of processVideoFrames: classify frame i,
segment either the full frame or the sparse diff image, offset the zIndex
values, and update the loop state.  The keyframe branches update
maxZIndexUsed without guarding against an empty block list (Math.max() then
yields -Infinity); the delta branch guards with blocks.length > 0. -/
def stepFrame (resample : PixelGrid → ℕ → ℕ → ℕ → Fin 256)
    (interval : ℕ) (dthr : ℚ) (cthr : ℤ) (mode : DiffMode)
    (i : ℕ) (g : PixelGrid) (st : VidState) : FrameInfo × VidState :=
  if i = 0 ∨ i % interval = 0 ∨ st.lastIFrame.isNone then
    let blocks := (processAndGroupImage g .area).map (addZ st.maxZ)
    let mz := ZVal.add (maxZOf blocks) (.int 1)
    (⟨i, .I_FRAME, 1, blocks, [], []⟩, ⟨some g, some g, mz⟩)
  else
    let ref := refFrame mode st g
    let dr := diffResultOf resample ref g cthr
    if dthr ≤ dr.diffRatioVal then
      let blocks := (processAndGroupImage g .area).map (addZ st.maxZ)
      let mz := ZVal.add (maxZOf blocks) (.int 1)
      (⟨i, .I_FRAME, dr.diffRatioVal, blocks, [], []⟩, ⟨some g, some g, mz⟩)
    else
      let blocks := (deltaBlocksOf resample cthr ref g).map (addZ st.maxZ)
      let mz := if blocks.length ≠ 0 then ZVal.add (maxZOf blocks) (.int 1) else st.maxZ
      (⟨i, .P_FRAME, dr.diffRatioVal, blocks, [], []⟩, ⟨st.lastIFrame, some g, mz⟩)

/-- Frame loop of processVideoFrames over the remaining frames, carrying the
absolute frame index and the loop state. -/
def processFramesAux (resample : PixelGrid → ℕ → ℕ → ℕ → Fin 256)
    (interval : ℕ) (dthr : ℚ) (cthr : ℤ) (mode : DiffMode) :
    ℕ → VidState → List PixelGrid → List FrameInfo
  | _, _, [] => []
  | i, st, g :: rest =>
      let r := stepFrame resample interval dthr cthr mode i g st
      r.1 :: processFramesAux resample interval dthr cthr mode (i + 1) r.2 rest

/-- Core of processVideoFrames after decoding: frames are the decoded,
resized pixel grids in path order; interval, dthr and cthr are the
iFrameInterval, diffThreshold and colorThreshold options.  The mcfunction
emission and the occlusion-scan side effects write files only and do not
feed back into the returned frame list. -/
def processVideoFrames (resample : PixelGrid → ℕ → ℕ → ℕ → Fin 256)
    (frames : List PixelGrid) (interval : ℕ) (dthr : ℚ) (cthr : ℤ)
    (mode : DiffMode) : List FrameInfo :=
  processFramesAux resample interval dthr cthr mode 0 ⟨none, none, .int 0⟩ frames

/-! ## Occlusion scanner (new_video.ts: scan3DCoveredBlocks) -/

/-- Tag under which a frame's blocks were spawned (source: the string
video_frame_N, with suffix _diff for delta frames). -/
def tagOf (fi : FrameInfo) : Tag :=
  ⟨fi.frameNumber, decide (fi.frameType = FrameType.P_FRAME)⟩

/-- Full-coverage test (source: isBlockFullyCovered): the covering block
must be drawn strictly later, and every pixel of the target must appear in
the covering block's pixel set.  Colour plays no role. -/
def isBlockFullyCovered (target covering : Block) : Bool :=
  ZVal.blt target.zIndex covering.zIndex &&
    target.pixels.all fun p => decide (p ∈ covering.pixels)

/-- Closed integer interval lo..hi as a list (empty when hi < lo), the
range of the source's grid-cell for loops. -/
def intRange (lo hi : ℤ) : List ℤ :=
  (List.range (hi - lo + 1).toNat).map fun (k : ℕ) => lo + (k : ℤ)

/-- Block/tag pairs collected by the scan: the current keyframe group is the
suffix from currentIFrameIndex, clipped to its most recent 10 frames. -/
def scannedItems (frames : List FrameInfo) (curIdx : ℕ) : List (Block × Tag) :=
  let group := frames.drop curIdx
  let toScan := if 10 < group.length then group.drop (group.length - 10) else group
  toScan.flatMap fun fi => fi.blocks.map fun b => (b, tagOf fi)

/-- Collected items sorted by zIndex descending (stable, as Array sort). -/
def sortedItems (frames : List FrameInfo) (curIdx : ℕ) : List (Block × Tag) :=
  stableSortBy (fun x y => ZVal.ble y.1.zIndex x.1.zIndex) (scannedItems frames curIdx)

/-- Spatial grid bucket (gx, gy): the scan registers every block under the
cell of its bounding-box origin only, floor(minX/10), floor(minY/10),
keeping insertion order. -/
def cellItems (frames : List FrameInfo) (curIdx : ℕ) (gx gy : ℤ) : List (Block × Tag) :=
  (sortedItems frames curIdx).filter fun it =>
    Int.fdiv it.1.minX 10 = gx ∧ Int.fdiv it.1.minY 10 = gy

/-- Per-target coverage decision of the scan: some candidate registered in a
grid cell spanned by the target's bounding box has strictly greater zIndex
and fully covers the target. -/
def coveredB (frames : List FrameInfo) (curIdx : ℕ) (tgt : Block × Tag) : Bool :=
  (intRange (Int.fdiv tgt.1.minX 10) (Int.fdiv tgt.1.maxX 10)).any fun gx =>
    (intRange (Int.fdiv tgt.1.minY 10) (Int.fdiv tgt.1.maxY 10)).any fun gy =>
      (cellItems frames curIdx gx gy).any fun cand =>
        ZVal.blt tgt.1.zIndex cand.1.zIndex && isBlockFullyCovered tgt.1 cand.1

/-- Occlusion scan (source: scan3DCoveredBlocks): returns [] when the
current keyframe group holds fewer than two frames; otherwise the targets
are examined from lowest zIndex upwards and each covered target's tag is
added once to the result set. -/
def scan3DCoveredBlocks (frames : List FrameInfo) (curIdx : ℕ) : List Tag :=
  if (frames.drop curIdx).length < 2 then []
  else
    ((sortedItems frames curIdx).reverse).foldl
      (fun acc tgt =>
        if coveredB frames curIdx tgt then
          if tgt.2 ∈ acc then acc else acc ++ [tgt.2]
        else acc)
      []

/-! ## Specification-side definitions used by the claims -/

/-- Union of the pixel coordinate sets of a block list. -/
def pixelUnion (bs : List Block) : Finset Coord :=
  bs.foldl (fun s b => s ∪ b.pixels.toFinset) ∅

/-- No coordinate belongs to two different blocks of the list. -/
def BlocksDisjoint (bs : List Block) : Prop :=
  List.Pairwise (fun b1 b2 => ∀ p ∈ b1.pixels, p ∉ b2.pixels) bs

/-- A block list partitions exactly the coordinate set S: per-block pixel
lists are duplicate-free, blocks are pairwise disjoint, all block pixels lie
in S, every element of S is covered, and every area field equals the pixel
count. -/
def PartitionsExactly (bs : List Block) (S : Finset Coord) : Prop :=
  (∀ b ∈ bs, b.pixels.Nodup) ∧ BlocksDisjoint bs ∧
    (∀ b ∈ bs, ∀ p ∈ b.pixels, p ∈ S) ∧ (∀ p ∈ S, ∃ b ∈ bs, p ∈ b.pixels) ∧
    (∀ b ∈ bs, b.area = b.pixels.length)

/-- The opaque coordinates of a grid as a finite set. -/
def solidFinset (g : PixelGrid) : Finset Coord := (solidCoords g).toFinset

/-- Phase 1 run to its fixpoint followed by dense zIndex reassignment: the
specification-side description that claim C10 compares the full two-phase
optimizer against. -/
def phase1ThenReindex (bs : List Block) : List Block := reindexZ (greedyMergeLoop bs)

/-- The cross-frame draw-order invariant of the specification: every block
of a later frame has a strictly greater zIndex than every block of every
earlier frame. -/
def zStrictAcrossFrames (infos : List FrameInfo) : Prop :=
  List.Pairwise
    (fun f1 f2 => ∀ b1 ∈ f1.blocks, ∀ b2 ∈ f2.blocks, ZVal.blt b1.zIndex b2.zIndex = true)
    infos

/-- The candidate block's bounding-box origin cell (the only cell the scan
registers it under) lies within the grid-cell range spanned by the target's
bounding box; cell size is the scanner's GRID_SIZE of 10. -/
def originInSpan (tgt cand : Block) : Prop :=
  Int.fdiv tgt.minX 10 ≤ Int.fdiv cand.minX 10 ∧
    Int.fdiv cand.minX 10 ≤ Int.fdiv tgt.maxX 10 ∧
    Int.fdiv tgt.minY 10 ≤ Int.fdiv cand.minY 10 ∧
    Int.fdiv cand.minY 10 ≤ Int.fdiv tgt.maxY 10

/-- Provenance of a keyframe's blocks: segmented from the full frame itself,
zIndex values offset by a single running value. -/
def KeyframeProvenance (frames : List PixelGrid) (k : ℕ) (fi : FrameInfo) : Prop :=
  ∃ z g, frames[k]? = some g ∧ fi.blocks = (processAndGroupImage g .area).map (addZ z)

/-- Provenance of a delta frame's blocks: segmented from the sparse diff
image against a reference frame, with the stored diff ratio the one computed
for that reference; in IFRAME mode the reference is the governing keyframe
(the latest earlier frame classified as a keyframe), in PREVIOUS mode the
immediately preceding frame. -/
def DeltaProvenance (resample : PixelGrid → ℕ → ℕ → ℕ → Fin 256) (cthr : ℤ)
    (mode : DiffMode) (frames : List PixelGrid) (infos : List FrameInfo)
    (k : ℕ) (fi : FrameInfo) : Prop :=
  ∃ z ref g, frames[k]? = some g ∧
    fi.blocks = (deltaBlocksOf resample cthr ref g).map (addZ z) ∧
    fi.diffRatioVal = (diffResultOf resample ref g cthr).diffRatioVal ∧
    (mode = .IFRAME →
      ∃ j fj, j < k ∧ infos[j]? = some fj ∧ fj.frameType = .I_FRAME ∧
        frames[j]? = some ref ∧
        ∀ m fm, j < m → m < k → infos[m]? = some fm → fm.frameType ≠ .I_FRAME) ∧
    (mode = .PREVIOUS → 1 ≤ k → frames[k - 1]? = some ref)

instance (bs : List Block) : Decidable (BlocksDisjoint bs) := by
  unfold BlocksDisjoint
  infer_instance

instance (tgt cand : Block) : Decidable (originInSpan tgt cand) := by
  unfold originInSpan
  infer_instance

instance (infos : List FrameInfo) : Decidable (zStrictAcrossFrames infos) := by
  unfold zStrictAcrossFrames
  infer_instance

/-! ## Kernel-evaluable form of the pipeline (phase 2 eliminated) -/

/-- processAndGroupImage with the provably inert phase-2 loop removed; the
form in which concrete runs of the pipeline are evaluated. -/
def processAndGroupImageEval (g : PixelGrid) (sb : SortBy) : List Block :=
  reindexZ (greedyMergeLoop (reindexZ (stableSortBy (blockLE sb) (segmentGrid g))))

/-- deltaBlocksOf in the same evaluable form. -/
def deltaBlocksOfEval (resample : PixelGrid → ℕ → ℕ → ℕ → Fin 256) (cthr : ℤ)
    (ref g : PixelGrid) : List Block :=
  processAndGroupImageEval
    (buildDiffGrid (diffResultOf resample ref g cthr).width
      (diffResultOf resample ref g cthr).height
      (diffResultOf resample ref g cthr).diffPixels) .area

/-- stepFrame in the same evaluable form. -/
def stepFrameEval (resample : PixelGrid → ℕ → ℕ → ℕ → Fin 256)
    (interval : ℕ) (dthr : ℚ) (cthr : ℤ) (mode : DiffMode)
    (i : ℕ) (g : PixelGrid) (st : VidState) : FrameInfo × VidState :=
  if i = 0 ∨ i % interval = 0 ∨ st.lastIFrame.isNone then
    let blocks := (processAndGroupImageEval g .area).map (addZ st.maxZ)
    let mz := ZVal.add (maxZOf blocks) (.int 1)
    (⟨i, .I_FRAME, 1, blocks, [], []⟩, ⟨some g, some g, mz⟩)
  else
    let ref := refFrame mode st g
    let dr := diffResultOf resample ref g cthr
    if dthr ≤ dr.diffRatioVal then
      let blocks := (processAndGroupImageEval g .area).map (addZ st.maxZ)
      let mz := ZVal.add (maxZOf blocks) (.int 1)
      (⟨i, .I_FRAME, dr.diffRatioVal, blocks, [], []⟩, ⟨some g, some g, mz⟩)
    else
      let blocks := (deltaBlocksOfEval resample cthr ref g).map (addZ st.maxZ)
      let mz := if blocks.length ≠ 0 then ZVal.add (maxZOf blocks) (.int 1) else st.maxZ
      (⟨i, .P_FRAME, dr.diffRatioVal, blocks, [], []⟩, ⟨st.lastIFrame, some g, mz⟩)

/-- processFramesAux in the same evaluable form. -/
def processFramesAuxEval (resample : PixelGrid → ℕ → ℕ → ℕ → Fin 256)
    (interval : ℕ) (dthr : ℚ) (cthr : ℤ) (mode : DiffMode) :
    ℕ → VidState → List PixelGrid → List FrameInfo
  | _, _, [] => []
  | i, st, g :: rest =>
      let r := stepFrameEval resample interval dthr cthr mode i g st
      r.1 :: processFramesAuxEval resample interval dthr cthr mode (i + 1) r.2 rest

/-! ## Concrete instances used to exercise the theorems -/

/-- Constant external resampler used in concrete runs (the resampling path
is never reached on equal-sized inputs). -/
def cRes : PixelGrid → ℕ → ℕ → ℕ → Fin 256 := fun _ _ _ _ => 0

/-- Fully transparent 1 by 1 grid. -/
def gT : PixelGrid := ⟨1, 1, fun _ => 0⟩

/-- Opaque red 1 by 1 grid. -/
def gRed : PixelGrid :=
  ⟨1, 1, fun i => if i % 4 = 0 then 255 else if i % 4 = 3 then 255 else 0⟩

/-- Opaque blue 1 by 1 grid. -/
def gBlue : PixelGrid :=
  ⟨1, 1, fun i => if i % 4 = 2 then 255 else if i % 4 = 3 then 255 else 0⟩

/-- Opaque white 2 by 1 grid, dimension-mismatched against the 1 by 1
grids. -/
def gWide : PixelGrid := ⟨2, 1, fun _ => 255⟩

/-- Unit block at the origin. -/
def bDemo1 : Block := ⟨0, 0, 0, 0, 0, 1, 1, 1, [(0, 0)], .int 0⟩

/-- Unit block of the same colour adjacent to bDemo1. -/
def bDemo2 : Block := ⟨0, 1, 0, 1, 0, 1, 1, 1, [(1, 0)], .int 1⟩

/-- Two adjacent unit blocks of one colour: a mergeable optimizer input. -/
def demoBlocks : List Block := [bDemo1, bDemo2]

/-- Occlusion-scan target: a unit block at (10, 10), drawn first. -/
def tgtDemo : Block := ⟨1, 10, 10, 10, 10, 1, 1, 1, [(10, 10)], .int 0⟩

/-- Later-drawn block whose pixel set covers tgtDemo but whose bounding-box
origin falls in grid cell (0, 0), outside every cell spanned by tgtDemo. -/
def covDemo : Block := ⟨2, 5, 5, 10, 10, 6, 6, 2, [(5, 5), (10, 10)], .int 1⟩

/-- Later-drawn block covering tgtDemo whose bounding-box origin shares the
target's grid cell (1, 1). -/
def covDemo2 : Block := ⟨2, 10, 10, 11, 11, 2, 2, 2, [(10, 10), (11, 11)], .int 1⟩

/-- Two-frame window in which covDemo covers tgtDemo. -/
def scanFrames1 : List FrameInfo :=
  [⟨0, .I_FRAME, 1, [tgtDemo], [], []⟩, ⟨1, .I_FRAME, 1, [covDemo], [], []⟩]

/-- Two-frame window in which covDemo2 covers tgtDemo. -/
def scanFrames2 : List FrameInfo :=
  [⟨0, .I_FRAME, 1, [tgtDemo], [], []⟩, ⟨1, .I_FRAME, 1, [covDemo2], [], []⟩]

/-! ## Generic list helpers -/

theorem forallTwo_mem_left {α β : Type} {R : α → β → Prop} {l : List α} {m : List β}
    (h : List.Forall₂ R l m) : ∀ a ∈ l, ∃ b ∈ m, R a b := by
  induction h with
  | nil => intro a ha; cases ha
  | cons hr _ ih =>
    intro a ha
    rcases List.mem_cons.1 ha with rfl | ha
    · exact ⟨_, List.mem_cons_self _ _, hr⟩
    · obtain ⟨b, hb, hrb⟩ := ih a ha
      exact ⟨b, List.mem_cons_of_mem _ hb, hrb⟩

theorem forallTwo_mem_right {α β : Type} {R : α → β → Prop} {l : List α} {m : List β}
    (h : List.Forall₂ R l m) : ∀ b ∈ m, ∃ a ∈ l, R a b := by
  induction h with
  | nil => intro b hb; cases hb
  | cons hr _ ih =>
    intro b hb
    rcases List.mem_cons.1 hb with rfl | hb
    · exact ⟨_, List.mem_cons_self _ _, hr⟩
    · obtain ⟨a, ha, hra⟩ := ih b hb
      exact ⟨a, List.mem_cons_of_mem _ ha, hra⟩

theorem forallTwo_pairwise {α β : Type} {R : α → β → Prop} {P : α → α → Prop}
    {Q : β → β → Prop} {l : List α} {m : List β} (h : List.Forall₂ R l m)
    (hPQ : ∀ a b a' b', R a b → R a' b' → Q b b' → P a a')
    (hq : m.Pairwise Q) : l.Pairwise P := by
  induction h with
  | nil => exact List.Pairwise.nil
  | cons hr ht ih =>
    rcases List.pairwise_cons.1 hq with ⟨hhead, htail⟩
    refine List.pairwise_cons.2 ⟨?_, ih htail⟩
    intro a' ha'
    obtain ⟨b', hb', hrb'⟩ := forallTwo_mem_left ht a' ha'
    exact hPQ _ _ _ _ hr hrb' (hhead b' hb')

theorem nodup_flatMap_of {α β : Type} [DecidableEq β] (l : List α) (f : α → List β)
    (h1 : ∀ a ∈ l, (f a).Nodup)
    (h2 : List.Pairwise (fun a a' => ∀ b ∈ f a, b ∉ f a') l) :
    (l.flatMap f).Nodup := by
  induction l with
  | nil => simp
  | cons a rest ih =>
    rw [List.flatMap_cons, List.nodup_append]
    rcases List.pairwise_cons.1 h2 with ⟨hhead, htail⟩
    refine ⟨h1 a (List.mem_cons_self _ _), ih (fun x hx => h1 x (List.mem_cons_of_mem _ hx)) htail, ?_⟩
    intro b hb hb'
    obtain ⟨a', ha', hba'⟩ := List.mem_flatMap.1 hb'
    exact hhead a' ha' b hb hba'

theorem insertLE_perm {α : Type} (le : α → α → Bool) (x : α) (l : List α) :
    List.Perm (insertLE le x l) (x :: l) := by
  induction l with
  | nil => simp [insertLE]
  | cons y ys ih =>
    simp only [insertLE]
    split
    · exact List.Perm.refl _
    · exact (ih.cons y).trans (List.Perm.swap x y ys)

theorem stableSortBy_perm {α : Type} (le : α → α → Bool) (l : List α) :
    List.Perm (stableSortBy le l) l := by
  induction l with
  | nil => exact List.Perm.refl _
  | cons x xs ih =>
    exact (insertLE_perm le x (stableSortBy le xs)).trans (ih.cons x)

/-! ## Lemmas about reindexing and zIndex offsetting -/

theorem reindexAux_forallTwo : ∀ (n : ℕ) (bs : List Block),
    List.Forall₂ (fun b' b => b'.pixels = b.pixels ∧ b'.area = b.area) (reindexAux n bs) bs := by
  intro n bs
  induction bs generalizing n with
  | nil => exact List.Forall₂.nil
  | cons b rest ih => exact List.Forall₂.cons ⟨rfl, rfl⟩ (ih (n + 1))

theorem reindexZ_forallTwo (bs : List Block) :
    List.Forall₂ (fun b' b => b'.pixels = b.pixels ∧ b'.area = b.area) (reindexZ bs) bs :=
  reindexAux_forallTwo 0 bs

theorem mapAddZ_forallTwo (z : ZVal) (bs : List Block) :
    List.Forall₂ (fun b' b => b'.pixels = b.pixels ∧ b'.area = b.area) (bs.map (addZ z)) bs := by
  induction bs with
  | nil => exact List.Forall₂.nil
  | cons b rest ih => exact List.Forall₂.cons ⟨rfl, rfl⟩ ih

theorem reindexZ_length (bs : List Block) : (reindexZ bs).length = bs.length :=
  (reindexZ_forallTwo bs).length_eq

/-! ## pixelUnion -/

theorem mem_foldl_union (p : Coord) : ∀ (bs : List Block) (init : Finset Coord),
    (p ∈ bs.foldl (fun s b => s ∪ b.pixels.toFinset) init ↔
      p ∈ init ∨ ∃ b ∈ bs, p ∈ b.pixels) := by
  intro bs
  induction bs with
  | nil => simp
  | cons b rest ih =>
    intro init
    rw [List.foldl_cons, ih]
    simp only [Finset.mem_union, List.mem_toFinset, List.mem_cons]
    constructor
    · rintro ((h | h) | ⟨b', hb', hp⟩)
      · exact Or.inl h
      · exact Or.inr ⟨b, Or.inl rfl, h⟩
      · exact Or.inr ⟨b', Or.inr hb', hp⟩
    · rintro (h | ⟨b', (rfl | hb'), hp⟩)
      · exact Or.inl (Or.inl h)
      · exact Or.inl (Or.inr hp)
      · exact Or.inr ⟨b', hb', hp⟩

theorem mem_pixelUnion {p : Coord} {bs : List Block} :
    p ∈ pixelUnion bs ↔ ∃ b ∈ bs, p ∈ b.pixels := by
  rw [pixelUnion, mem_foldl_union]
  simp

/-! ## dedupKF: first-occurrence deduplication -/

theorem dedupKF_mem : ∀ (l seen : List ℕ) (c : ℕ),
    c ∈ dedupKF seen l ↔ c ∈ l ∧ c ∉ seen := by
  intro l
  induction l with
  | nil => intro seen c; simp [dedupKF]
  | cons x xs ih =>
    intro seen c
    simp only [dedupKF]
    by_cases hx : x ∈ seen
    · rw [if_pos hx, ih, List.mem_cons]
      constructor
      · rintro ⟨h1, h2⟩; exact ⟨Or.inr h1, h2⟩
      · rintro ⟨rfl | h1, h2⟩
        · exact absurd hx h2
        · exact ⟨h1, h2⟩
    · rw [if_neg hx]
      simp only [List.mem_cons, ih, List.mem_cons]
      constructor
      · rintro (rfl | ⟨h1, h2⟩)
        · exact ⟨Or.inl rfl, hx⟩
        · exact ⟨Or.inr h1, fun hc => h2 (Or.inr hc)⟩
      · rintro ⟨rfl | h1, h2⟩
        · exact Or.inl rfl
        · by_cases hcx : c = x
          · exact Or.inl hcx
          · exact Or.inr ⟨h1, fun hc => by rcases hc with h | h; exact hcx h; exact h2 h⟩

theorem dedupKF_nodup : ∀ (l seen : List ℕ), (dedupKF seen l).Nodup := by
  intro l
  induction l with
  | nil => intro seen; simp [dedupKF]
  | cons x xs ih =>
    intro seen
    simp only [dedupKF]
    split
    · exact ih seen
    · refine List.nodup_cons.2 ⟨fun hx => ?_, ih _⟩
      exact ((dedupKF_mem xs (x :: seen) x).1 hx).2 (List.mem_cons_self x seen)

/-! ## solidCoords, colour buckets -/

theorem solidIf_eq_some {g : PixelGrid} {x y : ℕ} {p : Coord}
    (h : (if alphaOf g ((x : ℤ), (y : ℤ)) ≠ 0 then some ((x : ℤ), (y : ℤ)) else none) = some p) :
    p = ((x : ℤ), (y : ℤ)) ∧ alphaOf g ((x : ℤ), (y : ℤ)) ≠ 0 := by
  by_cases ha : alphaOf g ((x : ℤ), (y : ℤ)) ≠ 0
  · rw [if_pos ha] at h
    exact ⟨(Option.some_inj.1 h).symm, ha⟩
  · rw [if_neg ha] at h
    cases h

theorem solidCoords_mem {g : PixelGrid} {p : Coord} :
    p ∈ solidCoords g ↔
      ∃ x y : ℕ, x < g.width ∧ y < g.height ∧ p = ((x : ℤ), (y : ℤ)) ∧
        alphaOf g ((x : ℤ), (y : ℤ)) ≠ 0 := by
  constructor
  · intro h
    obtain ⟨y, hy, hin⟩ := List.mem_flatMap.1 h
    obtain ⟨x, hx, hsome⟩ := List.mem_filterMap.1 hin
    rw [List.mem_range] at hy hx
    obtain ⟨rfl, ha⟩ := solidIf_eq_some hsome
    exact ⟨x, y, hx, hy, rfl, ha⟩
  · rintro ⟨x, y, hx, hy, rfl, ha⟩
    exact List.mem_flatMap.2 ⟨y, List.mem_range.2 hy,
      List.mem_filterMap.2 ⟨x, List.mem_range.2 hx, by rw [if_pos ha]⟩⟩

theorem solidCoords_alpha {g : PixelGrid} {p : Coord} (h : p ∈ solidCoords g) :
    alphaOf g p ≠ 0 := by
  obtain ⟨x, y, _, _, rfl, ha⟩ := solidCoords_mem.1 h
  exact ha

theorem solidCoords_nodup (g : PixelGrid) : (solidCoords g).Nodup := by
  rw [solidCoords]
  refine nodup_flatMap_of _ _ ?_ ?_
  · intro y _
    refine List.Nodup.filterMap ?_ (List.nodup_range g.width)
    intro a a' b hb hb'
    rw [Option.mem_def] at hb hb'
    obtain ⟨rfl, -⟩ := solidIf_eq_some hb
    obtain ⟨he, -⟩ := solidIf_eq_some hb'
    exact Int.natCast_inj.mp (congrArg Prod.fst he)
  · refine List.Pairwise.imp ?_ (List.nodup_range g.height)
    intro y y' hne b hb hb'
    obtain ⟨x, -, hsome⟩ := List.mem_filterMap.1 hb
    obtain ⟨x', -, hsome'⟩ := List.mem_filterMap.1 hb'
    obtain ⟨rfl, -⟩ := solidIf_eq_some hsome
    obtain ⟨he, -⟩ := solidIf_eq_some hsome'
    have h2 : (y : ℤ) = (y' : ℤ) := congrArg Prod.snd he
    exact hne (Int.natCast_inj.mp h2)

theorem bucketOf_mem {g : PixelGrid} {c : ℕ} {p : Coord} :
    p ∈ bucketOf g c ↔ p ∈ solidCoords g ∧ colorOf g p = c := by
  simp [bucketOf]

theorem bucketOf_disjoint {g : PixelGrid} {c c' : ℕ} (h : c ≠ c') :
    ∀ p ∈ bucketOf g c, p ∉ bucketOf g c' := by
  intro p hp hp'
  exact h ((bucketOf_mem.1 hp).2.symm.trans (bucketOf_mem.1 hp').2 ▸ rfl)

theorem colorsOf_mem {g : PixelGrid} {c : ℕ} :
    c ∈ colorsOf g ↔ ∃ p ∈ solidCoords g, colorOf g p = c := by
  rw [colorsOf, dedupKF_mem]
  simp

theorem colorsOf_nodup (g : PixelGrid) : (colorsOf g).Nodup :=
  dedupKF_nodup _ _

/-! ## Breadth-first traversal: specification -/

theorem neighborsOf_nodup (p : Coord) : (neighborsOf p).Nodup := by
  simp [neighborsOf, Prod.ext_iff]
  omega

theorem bfsAux_spec (P : Finset Coord) :
    ∀ (fuel : ℕ) (visited : Finset Coord) (queue acc : List Coord),
      (P \ visited).card + queue.length ≤ fuel →
      (∀ q ∈ queue, q ∈ visited) →
      queue.Nodup →
      (∀ a ∈ acc, a ∈ visited) →
      acc.Nodup →
      (∀ a ∈ acc, a ∉ queue) →
      (bfsAux P fuel visited queue acc).2.Nodup ∧
        visited ⊆ (bfsAux P fuel visited queue acc).1 ∧
        ((bfsAux P fuel visited queue acc).1 \ visited) ⊆ P ∧
        (bfsAux P fuel visited queue acc).2.toFinset =
          acc.toFinset ∪ queue.toFinset ∪ ((bfsAux P fuel visited queue acc).1 \ visited) := by
  intro fuel
  induction fuel with
  | zero =>
    intro visited queue acc hfuel hq hqn ha han hd
    cases queue with
    | nil =>
      refine ⟨han, Finset.Subset.refl _, ?_, ?_⟩
      · simp [bfsAux]
      · simp [bfsAux]
    | cons p rest => simp at hfuel
  | succ fuel ih =>
    intro visited queue acc hfuel hq hqn ha han hd
    cases queue with
    | nil =>
      refine ⟨han, Finset.Subset.refl _, ?_, ?_⟩
      · simp [bfsAux]
      · simp [bfsAux]
    | cons p rest =>
      have hstep : bfsAux P (fuel + 1) visited (p :: rest) acc =
          bfsAux P fuel
            (visited ∪ ((neighborsOf p).filter fun n => n ∉ visited ∧ n ∈ P).toFinset)
            (rest ++ ((neighborsOf p).filter fun n => n ∉ visited ∧ n ∈ P))
            (acc ++ [p]) := rfl
      set ns := (neighborsOf p).filter (fun n => n ∉ visited ∧ n ∈ P) with hnsdef
      set visited' := visited ∪ ns.toFinset with hvdef
      have hns_sub : ∀ n ∈ ns, n ∈ neighborsOf p ∧ n ∉ visited ∧ n ∈ P := by
        intro n hn
        have := List.mem_filter.1 hn
        simpa using this
      have hns_nodup : ns.Nodup := (neighborsOf_nodup p).filter _
      have hp_vis : p ∈ visited := hq p (List.mem_cons_self _ _)
      have hsub : ns.toFinset ⊆ P \ visited := by
        intro n hn
        rw [List.mem_toFinset] at hn
        obtain ⟨-, h1, h2⟩ := hns_sub n hn
        exact Finset.mem_sdiff.2 ⟨h2, h1⟩
      have hcard : (P \ visited').card = (P \ visited).card - ns.length := by
        have hsd : P \ visited' = (P \ visited) \ ns.toFinset := by
          ext x
          simp only [hvdef, Finset.mem_sdiff, Finset.mem_union]
          tauto
        rw [hsd, Finset.card_sdiff hsub, List.toFinset_card_of_nodup hns_nodup]
      have hlen : ns.length ≤ (P \ visited).card := by
        calc ns.length = ns.toFinset.card := (List.toFinset_card_of_nodup hns_nodup).symm
          _ ≤ _ := Finset.card_le_card hsub
      have hfuel' : (P \ visited').card + (rest ++ ns).length ≤ fuel := by
        rw [hcard, List.length_append]
        simp only [List.length_cons] at hfuel
        omega
      have hq' : ∀ x ∈ rest ++ ns, x ∈ visited' := by
        intro x hx
        rcases List.mem_append.1 hx with hx | hx
        · exact Finset.mem_union_left _ (hq x (List.mem_cons_of_mem _ hx))
        · exact Finset.mem_union_right _ (List.mem_toFinset.2 hx)
      have hqn' : (rest ++ ns).Nodup := by
        refine List.nodup_append.2 ⟨(List.nodup_cons.1 hqn).2, hns_nodup, ?_⟩
        intro x hx hx'
        exact (hns_sub x hx').2.1 (hq x (List.mem_cons_of_mem _ hx))
      have ha' : ∀ x ∈ acc ++ [p], x ∈ visited' := by
        intro x hx
        rcases List.mem_append.1 hx with hx | hx
        · exact Finset.mem_union_left _ (ha x hx)
        · rw [List.mem_singleton.1 hx]
          exact Finset.mem_union_left _ hp_vis
      have han' : (acc ++ [p]).Nodup := by
        refine List.nodup_append.2 ⟨han, List.nodup_singleton p, ?_⟩
        intro x hx hx'
        rw [List.mem_singleton.1 hx'] at hx
        exact hd p hx (List.mem_cons_self _ _)
      have hd' : ∀ x ∈ acc ++ [p], x ∉ rest ++ ns := by
        intro x hx hx'
        rcases List.mem_append.1 hx with hx | hx
        · rcases List.mem_append.1 hx' with h | h
          · exact hd x hx (List.mem_cons_of_mem _ h)
          · exact (hns_sub x h).2.1 (ha x hx)
        · rw [List.mem_singleton.1 hx] at hx'
          rcases List.mem_append.1 hx' with h | h
          · exact (List.nodup_cons.1 hqn).1 h
          · exact (hns_sub p h).2.1 hp_vis
      obtain ⟨i1, i2, i3, i4⟩ := ih visited' (rest ++ ns) (acc ++ [p]) hfuel' hq' hqn' ha' han' hd'
      rw [hstep]
      set r := bfsAux P fuel visited' (rest ++ ns) (acc ++ [p]) with hrdef
      have hkey : r.1 \ visited = (r.1 \ visited') ∪ ns.toFinset := by
        ext x
        simp only [Finset.mem_sdiff, Finset.mem_union]
        constructor
        · rintro ⟨hx1, hx2⟩
          by_cases hv' : x ∈ visited'
          · rcases Finset.mem_union.1 hv' with h | h
            · exact absurd h hx2
            · exact Or.inr h
          · exact Or.inl ⟨hx1, hv'⟩
        · rintro (⟨hx1, hx2⟩ | h)
          · exact ⟨hx1, fun hv => hx2 (Finset.mem_union_left _ hv)⟩
          · refine ⟨i2 (Finset.mem_union_right _ h), (hns_sub x (List.mem_toFinset.1 h)).2.1⟩
      refine ⟨i1, ?_, ?_, ?_⟩
      · exact Finset.Subset.trans Finset.subset_union_left i2
      · intro x hx
        rcases Finset.mem_sdiff.1 hx with ⟨hx1, hx2⟩
        by_cases hv' : x ∈ visited'
        · rcases Finset.mem_union.1 hv' with h | h
          · exact absurd h hx2
          · exact (hns_sub x (List.mem_toFinset.1 h)).2.2
        · exact i3 (Finset.mem_sdiff.2 ⟨hx1, hv'⟩)
      · rw [i4, hkey]
        ext x
        simp only [Finset.mem_union, List.toFinset_append, List.toFinset_cons,
          List.toFinset_nil, Finset.mem_insert, List.mem_toFinset, List.mem_singleton,
          Finset.mem_sdiff, List.not_mem_nil, false_or, or_false]
        tauto

theorem componentsAux_spec (P : Finset Coord) :
    ∀ (seeds : List Coord) (visited : Finset Coord),
      (∀ s ∈ seeds, s ∈ P) →
      (∀ c ∈ componentsAux P seeds visited, c.Nodup) ∧
        (∀ c ∈ componentsAux P seeds visited, ∀ x ∈ c, x ∈ P ∧ x ∉ visited) ∧
        List.Pairwise (fun c₁ c₂ => ∀ x ∈ c₁, x ∉ c₂) (componentsAux P seeds visited) ∧
        (∀ s ∈ seeds, s ∈ visited ∨ ∃ c ∈ componentsAux P seeds visited, s ∈ c) := by
  intro seeds
  induction seeds with
  | nil =>
    intro visited _
    simp [componentsAux]
  | cons s rest ih =>
    intro visited hseeds
    have hseeds' : ∀ x ∈ rest, x ∈ P := fun x hx => hseeds x (List.mem_cons_of_mem _ hx)
    by_cases hs : s ∈ visited
    · have hred : componentsAux P (s :: rest) visited = componentsAux P rest visited := by
        simp [componentsAux, hs]
      obtain ⟨i1, i2, i3, i4⟩ := ih visited hseeds'
      rw [hred]
      refine ⟨i1, i2, i3, ?_⟩
      intro s' hs'
      rcases List.mem_cons.1 hs' with rfl | hs'
      · exact Or.inl hs
      · exact i4 s' hs'
    · have hsP : s ∈ P := hseeds s (List.mem_cons_self _ _)
      have hred : componentsAux P (s :: rest) visited =
          (bfsAux P (P.card + 1) (insert s visited) [s] []).2 ::
            componentsAux P rest (bfsAux P (P.card + 1) (insert s visited) [s] []).1 := by
        simp [componentsAux, hs]
      have hfuel : (P \ insert s visited).card + ([s] : List Coord).length ≤ P.card + 1 := by
        have : (P \ insert s visited).card ≤ P.card := Finset.card_le_card (Finset.sdiff_subset)
        simp only [List.length_singleton]
        omega
      obtain ⟨b1, b2, b3, b4⟩ := bfsAux_spec P (P.card + 1) (insert s visited) [s] []
        hfuel
        (by intro q hq; rw [List.mem_singleton.1 hq]; exact Finset.mem_insert_self _ _)
        (List.nodup_singleton s)
        (by intro a ha; cases ha)
        List.nodup_nil
        (by intro a ha; cases ha)
      set r := bfsAux P (P.card + 1) (insert s visited) [s] [] with hrdef
      have hcomp_fin : r.2.toFinset = {s} ∪ (r.1 \ insert s visited) := by
        rw [b4]
        simp
      have hs_in_comp : s ∈ r.2 := by
        rw [← List.mem_toFinset, hcomp_fin]
        exact Finset.mem_union_left _ (Finset.mem_singleton_self s)
      have hcomp_sub : ∀ x ∈ r.2, x ∈ P ∧ x ∉ visited := by
        intro x hx
        rw [← List.mem_toFinset, hcomp_fin] at hx
        rcases Finset.mem_union.1 hx with h | h
        · rw [Finset.mem_singleton.1 h]
          exact ⟨hsP, hs⟩
        · rcases Finset.mem_sdiff.1 h with ⟨h1, h2⟩
          exact ⟨b3 (Finset.mem_sdiff.2 ⟨h1, h2⟩), fun hv => h2 (Finset.mem_insert_of_mem hv)⟩
      have hcomp_r1 : ∀ x ∈ r.2, x ∈ r.1 := by
        intro x hx
        rw [← List.mem_toFinset, hcomp_fin] at hx
        rcases Finset.mem_union.1 hx with h | h
        · rw [Finset.mem_singleton.1 h]
          exact b2 (Finset.mem_insert_self _ _)
        · exact (Finset.mem_sdiff.1 h).1
      have hr1 : ∀ x ∈ r.1, x ∈ insert s visited ∨ x ∈ r.2 := by
        intro x hx
        by_cases hv : x ∈ insert s visited
        · exact Or.inl hv
        · refine Or.inr ?_
          rw [← List.mem_toFinset, hcomp_fin]
          exact Finset.mem_union_right _ (Finset.mem_sdiff.2 ⟨hx, hv⟩)
      obtain ⟨j1, j2, j3, j4⟩ := ih r.1 hseeds'
      rw [hred]
      refine ⟨?_, ?_, ?_, ?_⟩
      · intro c hc
        rcases List.mem_cons.1 hc with rfl | hc
        · exact b1
        · exact j1 c hc
      · intro c hc
        rcases List.mem_cons.1 hc with rfl | hc
        · exact hcomp_sub
        · intro x hx
          obtain ⟨h1, h2⟩ := j2 c hc x hx
          exact ⟨h1, fun hv => h2 (b2 (Finset.mem_insert_of_mem hv))⟩
      · refine List.pairwise_cons.2 ⟨?_, j3⟩
        intro c' hc' x hx hx'
        exact (j2 c' hc' x hx').2 (hcomp_r1 x hx)
      · intro s' hs'
        rcases List.mem_cons.1 hs' with rfl | hs'
        · exact Or.inr ⟨r.2, List.mem_cons_self _ _, hs_in_comp⟩
        · rcases j4 s' hs' with h | ⟨c, hc, hxc⟩
          · rcases hr1 s' h with h | h
            · rcases Finset.mem_insert.1 h with rfl | h
              · exact Or.inr ⟨r.2, List.mem_cons_self _ _, hs_in_comp⟩
              · exact Or.inl h
            · exact Or.inr ⟨r.2, List.mem_cons_self _ _, h⟩
          · exact Or.inr ⟨c, List.mem_cons_of_mem _ hc, hxc⟩

/-! ## Segmentation partitions the opaque pixels -/

theorem pairwise_flatMap_of {α β : Type} (R : β → β → Prop) (l : List α) (f : α → List β)
    (hin : ∀ a ∈ l, (f a).Pairwise R)
    (hcross : List.Pairwise (fun a a' => ∀ b ∈ f a, ∀ b' ∈ f a', R b b') l) :
    (l.flatMap f).Pairwise R := by
  induction l with
  | nil => simp
  | cons a rest ih =>
    rw [List.flatMap_cons, List.pairwise_append]
    rcases List.pairwise_cons.1 hcross with ⟨hhead, htail⟩
    refine ⟨hin a (List.mem_cons_self _ _),
      ih (fun x hx => hin x (List.mem_cons_of_mem _ hx)) htail, ?_⟩
    intro b hb b' hb'
    obtain ⟨a', ha', hba'⟩ := List.mem_flatMap.1 hb'
    exact hhead a' ha' b hb b' hba'

theorem sum_lengths_of_partition : ∀ (comps : List (List Coord)) (S : Finset Coord),
    (∀ c ∈ comps, c.Nodup) →
    List.Pairwise (fun c₁ c₂ => ∀ x ∈ c₁, x ∉ c₂) comps →
    (∀ c ∈ comps, ∀ x ∈ c, x ∈ S) →
    (∀ x ∈ S, ∃ c ∈ comps, x ∈ c) →
    (comps.map List.length).sum = S.card := by
  intro comps
  induction comps with
  | nil =>
    intro S _ _ _ hcov
    have hS : S = ∅ := by
      ext x
      simp only [Finset.not_mem_empty, iff_false]
      intro hx
      obtain ⟨c, hc, -⟩ := hcov x hx
      cases hc
    rw [hS]
    simp
  | cons c cs ih =>
    intro S hnd hdisj hsub hcov
    have hcS : c.toFinset ⊆ S := by
      intro x hx
      exact hsub c (List.mem_cons_self _ _) x (List.mem_toFinset.1 hx)
    rcases List.pairwise_cons.1 hdisj with ⟨hhead, htail⟩
    have ih' := ih (S \ c.toFinset)
      (fun c' hc' => hnd c' (List.mem_cons_of_mem _ hc'))
      htail
      (by
        intro c' hc' x hx
        refine Finset.mem_sdiff.2 ⟨hsub c' (List.mem_cons_of_mem _ hc') x hx, ?_⟩
        intro hxc
        exact hhead c' hc' x (List.mem_toFinset.1 hxc) hx)
      (by
        intro x hx
        rcases Finset.mem_sdiff.1 hx with ⟨hxS, hxc⟩
        obtain ⟨c', hc', hxc'⟩ := hcov x hxS
        rcases List.mem_cons.1 hc' with rfl | hc''
        · exact absurd (List.mem_toFinset.2 hxc') hxc
        · exact ⟨c', hc'', hxc'⟩)
    rw [List.map_cons, List.sum_cons, ih', Finset.card_sdiff hcS]
    have hcard : c.toFinset.card = c.length :=
      List.toFinset_card_of_nodup (hnd c (List.mem_cons_self _ _))
    have hle := Finset.card_le_card hcS
    omega

theorem segmentGrid_mem {g : PixelGrid} {b : Block} :
    b ∈ segmentGrid g ↔
      ∃ c ∈ colorsOf g,
        ∃ comp ∈ componentsAux (bucketOf g c).toFinset (bucketOf g c) ∅,
          b = mkBlock c comp := by
  simp only [segmentGrid, List.mem_flatMap, List.mem_map]
  constructor
  · rintro ⟨c, hc, comp, hcomp, rfl⟩
    exact ⟨c, hc, comp, hcomp, rfl⟩
  · rintro ⟨c, hc, comp, hcomp, rfl⟩
    exact ⟨c, hc, comp, hcomp, rfl⟩

theorem componentsAux_bucket (g : PixelGrid) (c : ℕ) :
    (∀ cp ∈ componentsAux (bucketOf g c).toFinset (bucketOf g c) ∅, cp.Nodup) ∧
      (∀ cp ∈ componentsAux (bucketOf g c).toFinset (bucketOf g c) ∅,
        ∀ x ∈ cp, x ∈ bucketOf g c) ∧
      List.Pairwise (fun c₁ c₂ => ∀ x ∈ c₁, x ∉ c₂)
        (componentsAux (bucketOf g c).toFinset (bucketOf g c) ∅) ∧
      (∀ s ∈ bucketOf g c,
        ∃ cp ∈ componentsAux (bucketOf g c).toFinset (bucketOf g c) ∅, s ∈ cp) := by
  obtain ⟨h1, h2, h3, h4⟩ := componentsAux_spec (bucketOf g c).toFinset (bucketOf g c) ∅
    (fun s hs => List.mem_toFinset.2 hs)
  refine ⟨h1, ?_, h3, ?_⟩
  · intro cp hcp x hx
    exact List.mem_toFinset.1 (h2 cp hcp x hx).1
  · intro s hs
    rcases h4 s hs with h | h
    · cases h
    · exact h

theorem segmentGrid_partitions (g : PixelGrid) :
    PartitionsExactly (segmentGrid g) (solidFinset g) := by
  refine ⟨?_, ?_, ?_, ?_, ?_⟩
  · intro b hb
    obtain ⟨c, -, comp, hcomp, rfl⟩ := segmentGrid_mem.1 hb
    exact (componentsAux_bucket g c).1 comp hcomp
  · rw [BlocksDisjoint, segmentGrid]
    refine pairwise_flatMap_of _ _ _ ?_ ?_
    · intro c _
      rw [List.pairwise_map]
      refine ((componentsAux_bucket g c).2.2.1).imp ?_
      intro cp cp' h x hx
      exact h x hx
    · refine ((colorsOf_nodup g)).imp ?_
      intro c c' hne b hb b' hb' p hp hp'
      obtain ⟨comp, hcomp, rfl⟩ := List.mem_map.1 hb
      obtain ⟨comp', hcomp', rfl⟩ := List.mem_map.1 hb'
      have h1 : p ∈ bucketOf g c := (componentsAux_bucket g c).2.1 comp hcomp p hp
      have h2 : p ∈ bucketOf g c' := (componentsAux_bucket g c').2.1 comp' hcomp' p hp'
      exact bucketOf_disjoint hne p h1 h2
  · intro b hb p hp
    obtain ⟨c, -, comp, hcomp, rfl⟩ := segmentGrid_mem.1 hb
    have h1 : p ∈ bucketOf g c := (componentsAux_bucket g c).2.1 comp hcomp p hp
    exact List.mem_toFinset.2 (bucketOf_mem.1 h1).1
  · intro p hp
    have hps : p ∈ solidCoords g := List.mem_toFinset.1 hp
    have hc : colorOf g p ∈ colorsOf g := colorsOf_mem.2 ⟨p, hps, rfl⟩
    have hb : p ∈ bucketOf g (colorOf g p) := bucketOf_mem.2 ⟨hps, rfl⟩
    obtain ⟨comp, hcomp, hpc⟩ := (componentsAux_bucket g (colorOf g p)).2.2.2 p hb
    refine ⟨mkBlock (colorOf g p) comp, ?_, hpc⟩
    exact segmentGrid_mem.2 ⟨colorOf g p, hc, comp, hcomp, rfl⟩
  · intro b hb
    obtain ⟨c, -, comp, hcomp, rfl⟩ := segmentGrid_mem.1 hb
    rfl

theorem partitions_sum_areas {bs : List Block} {S : Finset Coord}
    (h : PartitionsExactly bs S) : (bs.map (·.area)).sum = S.card := by
  obtain ⟨hnd, hdisj, hsub, hcov, harea⟩ := h
  have hmap : bs.map (·.area) = (bs.map (·.pixels)).map List.length := by
    rw [List.map_map]
    exact List.map_congr_left fun b hb => harea b hb
  rw [hmap]
  refine sum_lengths_of_partition _ S ?_ ?_ ?_ ?_
  · intro c hc
    obtain ⟨b, hb, rfl⟩ := List.mem_map.1 hc
    exact hnd b hb
  · rw [List.pairwise_map]
    exact hdisj
  · intro c hc x hx
    obtain ⟨b, hb, rfl⟩ := List.mem_map.1 hc
    exact hsub b hb x hx
  · intro x hx
    obtain ⟨b, hb, hxb⟩ := hcov x hx
    exact ⟨b.pixels, List.mem_map.2 ⟨b, hb, rfl⟩, hxb⟩

/-! ## The single merge step: extraction and preservation -/

theorem scanPairs_spec : ∀ (g : List (ℕ × Block)) (p q : ℕ × Block),
    g.Nodup → scanPairs g = some (p, q) →
    p ∈ g ∧ q ∈ g ∧ p ≠ q ∧ canMergeBlocks p.2 q.2 = true := by
  intro g
  induction g with
  | nil =>
    intro p q _ h
    simp [scanPairs] at h
  | cons x rest ih =>
    intro p q hnd h
    rw [scanPairs] at h
    rcases hfind : rest.find? (fun q => canMergeBlocks x.2 q.2) with _ | q'
    · rw [hfind] at h
      obtain ⟨h1, h2, h3, h4⟩ := ih p q (List.nodup_cons.1 hnd).2 h
      exact ⟨List.mem_cons_of_mem _ h1, List.mem_cons_of_mem _ h2, h3, h4⟩
    · rw [hfind] at h
      have hpq : p = x ∧ q = q' := by
        have := Option.some_inj.1 h
        exact ⟨(congrArg Prod.fst this).symm, (congrArg Prod.snd this).symm⟩
      obtain ⟨rfl, rfl⟩ := hpq
      have hqr : q ∈ rest := List.mem_of_find?_eq_some hfind
      refine ⟨List.mem_cons_self _ _, List.mem_cons_of_mem _ hqr, ?_, ?_⟩
      · intro he
        exact (List.nodup_cons.1 hnd).1 (he ▸ hqr)
      · have hps := List.find?_some hfind
        simpa using hps

theorem enum_nodup (bs : List Block) : bs.enum.Nodup := by
  have h : (bs.enum.map Prod.fst).Nodup := by
    rw [List.enum_map_fst]
    exact List.nodup_range _
  exact h.of_map _

theorem mem_enum_getElem {bs : List Block} {ib : ℕ × Block} (h : ib ∈ bs.enum) :
    bs[ib.1]? = some ib.2 := by
  have : (ib.1, ib.2) ∈ bs.enum := by
    rw [show ((ib.1, ib.2) : ℕ × Block) = ib from rfl]
    exact h
  exact List.mk_mem_enum_iff_getElem?.1 this

theorem tryMergeOperation_spec {bs bs' : List Block}
    (h : tryMergeOperation bs = some bs') :
    ∃ (rest : List Block) (b1 b2 : Block),
      List.Perm bs (rest ++ [b1, b2]) ∧
      bs' = rest ++ [mergeBlocks b1 b2] ∧
      canMergeBlocks b1 b2 = true := by
  rw [tryMergeOperation] at h
  rcases hfs : (dedupKF [] (bs.map (·.color))).findSome?
      (fun c => scanPairs ((bs.enum).filter fun ib => ib.2.color = c)) with _ | pq
  · rw [hfs] at h
    cases h
  · rw [hfs] at h
    obtain ⟨c, -, hscan⟩ := List.exists_of_findSome?_eq_some hfs
    have hgrp_nd : ((bs.enum).filter fun ib => decide (ib.2.color = c)).Nodup :=
      (enum_nodup bs).filter _
    obtain ⟨hp, hq, hne, hcan⟩ := scanPairs_spec _ pq.1 pq.2 hgrp_nd (by
      rw [show ((pq.1, pq.2) : (ℕ × Block) × (ℕ × Block)) = pq from rfl]
      exact hscan)
    have hpe : pq.1 ∈ bs.enum := List.mem_of_mem_filter hp
    have hqe : pq.2 ∈ bs.enum := List.mem_of_mem_filter hq
    have hgi : bs[pq.1.1]? = some pq.1.2 := mem_enum_getElem hpe
    have hgj : bs[pq.2.1]? = some pq.2.2 := mem_enum_getElem hqe
    have hij : pq.1.1 ≠ pq.2.1 := by
      intro hij
      rw [hij, hgj] at hgi
      apply hne
      have h2 : pq.1.2 = pq.2.2 := Option.some_inj.1 hgi.symm
      exact Prod.ext hij h2
    have hneg : (bs.enum.filter fun ib =>
        !(decide (ib.1 ≠ pq.1.1 ∧ ib.1 ≠ pq.2.1))).Perm [pq.1, pq.2] := by
      refine List.perm_of_nodup_nodup_toFinset_eq ((enum_nodup bs).filter _) ?_ ?_
      · refine List.nodup_cons.2 ⟨?_, List.nodup_singleton _⟩
        rw [List.mem_singleton]
        intro he
        exact hij (congrArg Prod.fst he)
      · ext ib
        simp only [List.mem_toFinset, List.mem_filter, List.mem_cons, List.mem_singleton,
          List.not_mem_nil, or_false, Bool.not_eq_true', decide_eq_false_iff_not,
          not_and, not_not]
        constructor
        · rintro ⟨hmem, himp⟩
          by_cases h1 : ib.1 = pq.1.1
          · left
            have hg := mem_enum_getElem hmem
            rw [h1, hgi] at hg
            exact Prod.ext h1 (Option.some_inj.1 hg.symm)
          · right
            have h2 := himp h1
            have hg := mem_enum_getElem hmem
            rw [h2, hgj] at hg
            exact Prod.ext h2 (Option.some_inj.1 hg.symm)
        · rintro (rfl | rfl)
          · exact ⟨hpe, fun hc => absurd rfl hc⟩
          · exact ⟨hqe, fun _ => rfl⟩
    refine ⟨((bs.enum).filter fun ib => ib.1 ≠ pq.1.1 ∧ ib.1 ≠ pq.2.1).map (·.2),
      pq.1.2, pq.2.2, ?_, ?_, hcan⟩
    · have h1 := (List.filter_append_perm
        (fun ib => decide (ib.1 ≠ pq.1.1 ∧ ib.1 ≠ pq.2.1)) bs.enum).symm
      have h3 := h1.map Prod.snd
      rw [List.enum_map_snd, List.map_append] at h3
      have h4 := hneg.map Prod.snd
      exact h3.trans (List.Perm.append_left _ h4)
    · rw [Option.map_some'] at h
      exact (Option.some_inj.1 h).symm

theorem tryMergeOperation_length {bs bs' : List Block}
    (h : tryMergeOperation bs = some bs') : bs'.length < bs.length := by
  obtain ⟨rest, b1, b2, hperm, rfl, -⟩ := tryMergeOperation_spec h
  have hl := hperm.length_eq
  simp only [List.length_append, List.length_cons, List.length_singleton] at hl ⊢
  omega

theorem mergeBlocks_pixels (b1 b2 : Block) :
    (mergeBlocks b1 b2).pixels = b1.pixels ++ b2.pixels := rfl

theorem mergeBlocks_area (b1 b2 : Block) :
    (mergeBlocks b1 b2).area = (mergeBlocks b1 b2).pixels.length := rfl

theorem partitions_of_perm {bs bs' : List Block} {S : Finset Coord}
    (hp : List.Perm bs bs') (h : PartitionsExactly bs S) : PartitionsExactly bs' S := by
  obtain ⟨h1, h2, h3, h4, h5⟩ := h
  refine ⟨fun b hb => h1 b (hp.mem_iff.2 hb), ?_,
    fun b hb => h3 b (hp.mem_iff.2 hb),
    fun p hpS => by obtain ⟨b, hb, hpb⟩ := h4 p hpS; exact ⟨b, hp.mem_iff.1 hb, hpb⟩,
    fun b hb => h5 b (hp.mem_iff.2 hb)⟩
  exact (hp.pairwise_iff fun hab p hp1 hp2 => hab p hp2 hp1).1 h2

theorem partitions_tryMerge {bs bs' : List Block} {S : Finset Coord}
    (hm : tryMergeOperation bs = some bs') (h : PartitionsExactly bs S) :
    PartitionsExactly bs' S := by
  obtain ⟨rest, b1, b2, hperm, rfl, -⟩ := tryMergeOperation_spec hm
  obtain ⟨h1, h2, h3, h4, h5⟩ := partitions_of_perm hperm h
  rcases List.pairwise_append.1 h2 with ⟨hrest, hpair, hcross⟩
  have hb1 : b1 ∈ rest ++ [b1, b2] := List.mem_append_right _ (List.mem_cons_self _ _)
  have hb2 : b2 ∈ rest ++ [b1, b2] :=
    List.mem_append_right _ (List.mem_cons_of_mem _ (List.mem_singleton_self _))
  have hd12 : ∀ p ∈ b1.pixels, p ∉ b2.pixels :=
    (List.pairwise_cons.1 hpair).1 b2 (List.mem_singleton_self _)
  refine ⟨?_, ?_, ?_, ?_, ?_⟩
  · intro b hb
    rcases List.mem_append.1 hb with hb | hb
    · exact h1 b (List.mem_append_left _ hb)
    · rw [List.mem_singleton.1 hb, mergeBlocks_pixels]
      exact List.nodup_append.2 ⟨h1 b1 hb1, h1 b2 hb2, hd12⟩
  · refine List.pairwise_append.2 ⟨hrest, List.pairwise_singleton _ _, ?_⟩
    intro x hx y hy
    rw [List.mem_singleton.1 hy]
    intro p hpx
    rw [mergeBlocks_pixels, List.mem_append]
    rintro (hp | hp)
    · exact hcross x hx b1 (List.mem_cons_self _ _) p hpx hp
    · exact hcross x hx b2 (List.mem_cons_of_mem _ (List.mem_singleton_self _)) p hpx hp
  · intro b hb p hp
    rcases List.mem_append.1 hb with hb | hb
    · exact h3 b (List.mem_append_left _ hb) p hp
    · rw [List.mem_singleton.1 hb, mergeBlocks_pixels] at hp
      rcases List.mem_append.1 hp with hp | hp
      · exact h3 b1 hb1 p hp
      · exact h3 b2 hb2 p hp
  · intro p hpS
    obtain ⟨b, hb, hpb⟩ := h4 p hpS
    rcases List.mem_append.1 hb with hb | hb
    · exact ⟨b, List.mem_append_left _ hb, hpb⟩
    · refine ⟨mergeBlocks b1 b2, List.mem_append_right _ (List.mem_singleton_self _), ?_⟩
      rw [mergeBlocks_pixels, List.mem_append]
      rcases List.mem_cons.1 hb with rfl | hb
      · exact Or.inl hpb
      · rw [List.mem_singleton.1 hb] at hpb
        exact Or.inr hpb
  · intro b hb
    rcases List.mem_append.1 hb with hb | hb
    · exact h5 b (List.mem_append_left _ hb)
    · rw [List.mem_singleton.1 hb]
      exact mergeBlocks_area b1 b2

theorem pixelUnion_tryMerge {bs bs' : List Block}
    (hm : tryMergeOperation bs = some bs') : pixelUnion bs' = pixelUnion bs := by
  obtain ⟨rest, b1, b2, hperm, rfl, -⟩ := tryMergeOperation_spec hm
  ext p
  rw [mem_pixelUnion, mem_pixelUnion]
  constructor
  · rintro ⟨b, hb, hpb⟩
    rcases List.mem_append.1 hb with hb | hb
    · exact ⟨b, hperm.mem_iff.2 (List.mem_append_left _ hb), hpb⟩
    · rw [List.mem_singleton.1 hb, mergeBlocks_pixels] at hpb
      rcases List.mem_append.1 hpb with hp | hp
      · exact ⟨b1, hperm.mem_iff.2
          (List.mem_append_right _ (List.mem_cons_self _ _)), hp⟩
      · exact ⟨b2, hperm.mem_iff.2
          (List.mem_append_right _ (List.mem_cons_of_mem _ (List.mem_singleton_self _))), hp⟩
  · rintro ⟨b, hb, hpb⟩
    rcases List.mem_append.1 (hperm.mem_iff.1 hb) with hb' | hb'
    · exact ⟨b, List.mem_append_left _ hb', hpb⟩
    · refine ⟨mergeBlocks b1 b2, List.mem_append_right _ (List.mem_singleton_self _), ?_⟩
      rw [mergeBlocks_pixels, List.mem_append]
      rcases List.mem_cons.1 hb' with rfl | hb'
      · exact Or.inl hpb
      · rw [List.mem_singleton.1 hb'] at hpb
        exact Or.inr hpb

/-! ## Phase 1 greedy loop and phase 2 -/

theorem greedyAux_partitions : ∀ (fuel : ℕ) (bs : List Block) (S : Finset Coord),
    PartitionsExactly bs S → PartitionsExactly (greedyAux fuel bs) S := by
  intro fuel
  induction fuel with
  | zero => intro bs S h; exact h
  | succ fuel ih =>
    intro bs S h
    rw [greedyAux]
    rcases hm : tryMergeOperation bs with _ | bs'
    · exact h
    · exact ih bs' S (partitions_tryMerge hm h)

theorem greedyAux_pixelUnion : ∀ (fuel : ℕ) (bs : List Block),
    pixelUnion (greedyAux fuel bs) = pixelUnion bs := by
  intro fuel
  induction fuel with
  | zero => intro bs; rfl
  | succ fuel ih =>
    intro bs
    rw [greedyAux]
    rcases hm : tryMergeOperation bs with _ | bs'
    · rfl
    · rw [ih bs', pixelUnion_tryMerge hm]

theorem greedyAux_length_le : ∀ (fuel : ℕ) (bs : List Block),
    (greedyAux fuel bs).length ≤ bs.length := by
  intro fuel
  induction fuel with
  | zero => intro bs; exact Nat.le_refl _
  | succ fuel ih =>
    intro bs
    rw [greedyAux]
    rcases hm : tryMergeOperation bs with _ | bs'
    · exact Nat.le_refl _
    · exact Nat.le_trans (ih bs') (Nat.le_of_lt (tryMergeOperation_length hm))

theorem greedyAux_fix : ∀ (fuel : ℕ) (bs : List Block), bs.length < fuel →
    tryMergeOperation (greedyAux fuel bs) = none := by
  intro fuel
  induction fuel with
  | zero => intro bs h; omega
  | succ fuel ih =>
    intro bs h
    rw [greedyAux]
    rcases hm : tryMergeOperation bs with _ | bs'
    · exact hm
    · exact ih bs' (by have := tryMergeOperation_length hm; omega)

theorem greedyAux_fuel_irrel : ∀ (n m : ℕ) (bs : List Block),
    bs.length < n → n ≤ m → greedyAux m bs = greedyAux n bs := by
  intro n
  induction n with
  | zero => intro m bs h; omega
  | succ n ih =>
    intro m bs hlen hm
    cases m with
    | zero => omega
    | succ m =>
      rw [greedyAux, greedyAux]
      rcases hmm : tryMergeOperation bs with _ | bs'
      · rfl
      · exact ih m bs' (by have := tryMergeOperation_length hmm; omega) (by omega)

theorem greedyMergeLoop_fix (bs : List Block) :
    tryMergeOperation (greedyMergeLoop bs) = none :=
  greedyAux_fix (bs.length + 1) bs (Nat.lt_succ_self _)

theorem foldl_phase2_fix : ∀ (l : List ℕ) (bs : List Block) (c : ℚ),
    tryMergeOperation bs = none → l.foldl phase2Step (bs, c) = (bs, c) := by
  intro l
  induction l with
  | nil => intro bs c _; rfl
  | cons k rest ih =>
    intro bs c h
    rw [List.foldl_cons]
    have hstep : phase2Step (bs, c) k = (bs, c) := by
      rw [phase2Step]
      by_cases hk : k % 2 = 0
      · rw [if_pos hk]
        simp only [h]
      · rw [if_neg hk]
    rw [hstep]
    exact ih bs c h

theorem localSearchOptimization_eq (bs : List Block) (n : ℕ) :
    localSearchOptimization bs n = phase1ThenReindex bs := by
  rw [localSearchOptimization, phase1ThenReindex,
    foldl_phase2_fix _ _ _ (greedyMergeLoop_fix bs)]

theorem processAndGroupImage_eval (g : PixelGrid) (sb : SortBy) :
    processAndGroupImage g sb =
      reindexZ (greedyMergeLoop (reindexZ (stableSortBy (blockLE sb) (segmentGrid g)))) := by
  rw [processAndGroupImage, localSearchOptimization_eq, phase1ThenReindex]

theorem partitions_forallTwo {bs' bs : List Block} {S : Finset Coord}
    (hf : List.Forall₂ (fun b' b => b'.pixels = b.pixels ∧ b'.area = b.area) bs' bs)
    (h : PartitionsExactly bs S) : PartitionsExactly bs' S := by
  obtain ⟨h1, h2, h3, h4, h5⟩ := h
  refine ⟨?_, ?_, ?_, ?_, ?_⟩
  · intro b' hb'
    obtain ⟨b, hb, hpx, -⟩ := forallTwo_mem_left hf b' hb'
    rw [hpx]
    exact h1 b hb
  · exact forallTwo_pairwise hf
      (fun a b a' b' ⟨hpx, _⟩ ⟨hpx', _⟩ hq => by rw [hpx, hpx']; exact hq) h2
  · intro b' hb' p hp
    obtain ⟨b, hb, hpx, -⟩ := forallTwo_mem_left hf b' hb'
    rw [hpx] at hp
    exact h3 b hb p hp
  · intro p hpS
    obtain ⟨b, hb, hpb⟩ := h4 p hpS
    obtain ⟨b', hb', hpx, -⟩ := forallTwo_mem_right hf b hb
    exact ⟨b', hb', by rw [hpx]; exact hpb⟩
  · intro b' hb'
    obtain ⟨b, hb, hpx, har⟩ := forallTwo_mem_left hf b' hb'
    rw [hpx, har]
    exact h5 b hb

theorem pixelUnion_forallTwo {bs' bs : List Block}
    (hf : List.Forall₂ (fun b' b => b'.pixels = b.pixels ∧ b'.area = b.area) bs' bs) :
    pixelUnion bs' = pixelUnion bs := by
  ext p
  rw [mem_pixelUnion, mem_pixelUnion]
  constructor
  · rintro ⟨b', hb', hp⟩
    obtain ⟨b, hb, hpx, -⟩ := forallTwo_mem_left hf b' hb'
    exact ⟨b, hb, by rw [← hpx]; exact hp⟩
  · rintro ⟨b, hb, hp⟩
    obtain ⟨b', hb', hpx, -⟩ := forallTwo_mem_right hf b hb
    exact ⟨b', hb', by rw [hpx]; exact hp⟩

theorem pixelUnion_perm {bs bs' : List Block} (hp : List.Perm bs bs') :
    pixelUnion bs = pixelUnion bs' := by
  ext p
  rw [mem_pixelUnion, mem_pixelUnion]
  constructor
  · rintro ⟨b, hb, hpb⟩
    exact ⟨b, hp.mem_iff.1 hb, hpb⟩
  · rintro ⟨b, hb, hpb⟩
    exact ⟨b, hp.mem_iff.2 hb, hpb⟩

theorem processAndGroupImage_partitions (g : PixelGrid) (sb : SortBy) :
    PartitionsExactly (processAndGroupImage g sb) (solidFinset g) := by
  rw [processAndGroupImage_eval]
  refine partitions_forallTwo (reindexZ_forallTwo _) ?_
  refine greedyAux_partitions _ _ _ ?_
  refine partitions_forallTwo (reindexZ_forallTwo _) ?_
  exact partitions_of_perm (stableSortBy_perm _ _).symm (segmentGrid_partitions g)

/-! ## Optimizer-level corollaries -/

theorem localSearchOptimization_pixelUnion (bs : List Block) (n : ℕ) :
    pixelUnion (localSearchOptimization bs n) = pixelUnion bs := by
  rw [localSearchOptimization_eq, phase1ThenReindex,
    pixelUnion_forallTwo (reindexZ_forallTwo _), greedyMergeLoop, greedyAux_pixelUnion]

theorem localSearchOptimization_length_le (bs : List Block) (n : ℕ) :
    (localSearchOptimization bs n).length ≤ bs.length := by
  rw [localSearchOptimization_eq, phase1ThenReindex, reindexZ_length, greedyMergeLoop]
  exact greedyAux_length_le _ _

/-! ## Frame diff lemmas -/

theorem maxChanDiff_self (p : Pixel) : maxChanDiff p p = 0 := by
  simp [maxChanDiff]

theorem drawResample_self (resample : PixelGrid → ℕ → ℕ → ℕ → Fin 256) (g : PixelGrid) :
    drawResample resample g g.width g.height = g := by
  rw [drawResample, if_pos ⟨rfl, rfl⟩]

theorem diffRatio_eq (resample : PixelGrid → ℕ → ℕ → ℕ → Fin 256)
    (prev current : PixelGrid) (t : ℤ) :
    (diffResultOf resample prev current t).diffRatioVal =
      ((diffResultOf resample prev current t).diffPixels.length : ℚ) /
        ((prev.width * prev.height : ℕ) : ℚ) := rfl

theorem diffPixels_self (resample : PixelGrid → ℕ → ℕ → ℕ → Fin 256) (g : PixelGrid)
    {t : ℤ} (ht : 0 ≤ t) : (diffResultOf resample g g t).diffPixels = [] := by
  show (List.range (g.width * g.height)).filterMap _ = []
  rw [List.filterMap_eq_nil_iff]
  intro i _
  rw [drawResample_self, maxChanDiff_self]
  rw [if_neg]
  simp only [Nat.cast_zero, gt_iff_lt, not_lt]
  exact ht

theorem diffRatio_self (resample : PixelGrid → ℕ → ℕ → ℕ → Fin 256) (g : PixelGrid)
    {t : ℤ} (ht : 0 ≤ t) : (diffResultOf resample g g t).diffRatioVal = 0 := by
  rw [diffRatio_eq, diffPixels_self resample g ht]
  simp

theorem countP_if_length {α β : Type} (l : List α) (p : α → Prop) [DecidablePred p]
    (f : α → β) :
    (l.filterMap fun a => if p a then some (f a) else none).length =
      l.countP fun a => decide (p a) := by
  induction l with
  | nil => rfl
  | cons a rest ih =>
    rw [List.filterMap_cons, List.countP_cons]
    by_cases hp : p a
    · rw [if_pos hp, List.length_cons, ih]
      simp [hp]
    · rw [if_neg hp, ih]
      simp [hp]

theorem diff_count_mono (resample : PixelGrid → ℕ → ℕ → ℕ → Fin 256)
    (prev current : PixelGrid) {t1 t2 : ℤ} (h : t1 ≤ t2) :
    (diffResultOf resample prev current t2).diffPixels.length ≤
      (diffResultOf resample prev current t1).diffPixels.length := by
  show ((List.range (prev.width * prev.height)).filterMap _).length ≤
    ((List.range (prev.width * prev.height)).filterMap _).length
  rw [countP_if_length _ _ (fun i =>
      ((((i % prev.width : ℕ) : ℤ), ((i / prev.width : ℕ) : ℤ)),
        pixelAt (drawResample resample current prev.width prev.height) i)),
    countP_if_length _ _ (fun i =>
      ((((i % prev.width : ℕ) : ℤ), ((i / prev.width : ℕ) : ℤ)),
        pixelAt (drawResample resample current prev.width prev.height) i))]
  refine List.countP_mono_left ?_
  intro i _ hi
  simp only [decide_eq_true_eq] at hi ⊢
  omega

theorem diffRatio_mono (resample : PixelGrid → ℕ → ℕ → ℕ → Fin 256)
    (prev current : PixelGrid) {t1 t2 : ℤ} (h : t1 ≤ t2) :
    (diffResultOf resample prev current t2).diffRatioVal ≤
      (diffResultOf resample prev current t1).diffRatioVal := by
  rw [diffRatio_eq, diffRatio_eq]
  refine div_le_div_of_nonneg_right ?_ ?_
  · exact_mod_cast diff_count_mono resample prev current h
  · positivity

/-! ## Video pipeline: branch equations for stepFrame -/

theorem stepFrame_keyframe (resample : PixelGrid → ℕ → ℕ → ℕ → Fin 256)
    (interval : ℕ) (dthr : ℚ) (cthr : ℤ) (mode : DiffMode) (i : ℕ) (g : PixelGrid)
    (st : VidState) (hI : i = 0 ∨ i % interval = 0 ∨ st.lastIFrame.isNone = true) :
    stepFrame resample interval dthr cthr mode i g st =
      (⟨i, .I_FRAME, 1, (processAndGroupImage g .area).map (addZ st.maxZ), [], []⟩,
        ⟨some g, some g,
          ZVal.add (maxZOf ((processAndGroupImage g .area).map (addZ st.maxZ))) (.int 1)⟩) := by
  simp only [stepFrame, if_pos hI]

theorem stepFrame_promote (resample : PixelGrid → ℕ → ℕ → ℕ → Fin 256)
    (interval : ℕ) (dthr : ℚ) (cthr : ℤ) (mode : DiffMode) (i : ℕ) (g : PixelGrid)
    (st : VidState) (hI : ¬ (i = 0 ∨ i % interval = 0 ∨ st.lastIFrame.isNone = true))
    (hthr : dthr ≤ (diffResultOf resample (refFrame mode st g) g cthr).diffRatioVal) :
    stepFrame resample interval dthr cthr mode i g st =
      (⟨i, .I_FRAME, (diffResultOf resample (refFrame mode st g) g cthr).diffRatioVal,
          (processAndGroupImage g .area).map (addZ st.maxZ), [], []⟩,
        ⟨some g, some g,
          ZVal.add (maxZOf ((processAndGroupImage g .area).map (addZ st.maxZ))) (.int 1)⟩) := by
  simp only [stepFrame, if_neg hI, if_pos hthr]

theorem stepFrame_delta (resample : PixelGrid → ℕ → ℕ → ℕ → Fin 256)
    (interval : ℕ) (dthr : ℚ) (cthr : ℤ) (mode : DiffMode) (i : ℕ) (g : PixelGrid)
    (st : VidState) (hI : ¬ (i = 0 ∨ i % interval = 0 ∨ st.lastIFrame.isNone = true))
    (hthr : ¬ dthr ≤ (diffResultOf resample (refFrame mode st g) g cthr).diffRatioVal) :
    stepFrame resample interval dthr cthr mode i g st =
      (⟨i, .P_FRAME, (diffResultOf resample (refFrame mode st g) g cthr).diffRatioVal,
          (deltaBlocksOf resample cthr (refFrame mode st g) g).map (addZ st.maxZ), [], []⟩,
        ⟨st.lastIFrame, some g,
          if ((deltaBlocksOf resample cthr (refFrame mode st g) g).map (addZ st.maxZ)).length ≠ 0
          then ZVal.add
            (maxZOf ((deltaBlocksOf resample cthr (refFrame mode st g) g).map (addZ st.maxZ)))
            (.int 1)
          else st.maxZ⟩) := by
  simp only [stepFrame, if_neg hI, if_neg hthr]

/-! ## Video pipeline: classification and provenance of every frame -/

set_option maxRecDepth 2000 in
theorem processFramesAux_spec (resample : PixelGrid → ℕ → ℕ → ℕ → Fin 256)
    (interval : ℕ) (dthr : ℚ) (cthr : ℤ) (mode : DiffMode) :
    ∀ (fs : List PixelGrid) (i : ℕ) (st : VidState),
      (st.lastIFrame = none → i = 0) →
      (st.prevFrame = none → i = 0) →
      ∀ (k : ℕ) (fi : FrameInfo),
        (processFramesAux resample interval dthr cthr mode i st fs)[k]? = some fi →
        fi.frameNumber = i + k ∧
        fi.frameType = (if i + k = 0 ∨ (i + k) % interval = 0 then FrameType.I_FRAME
          else if dthr ≤ fi.diffRatioVal then FrameType.I_FRAME else FrameType.P_FRAME) ∧
        (fi.frameType = .I_FRAME → ∃ z g, fs[k]? = some g ∧
          fi.blocks = (processAndGroupImage g .area).map (addZ z)) ∧
        (fi.frameType = .P_FRAME → ∃ z ref g, fs[k]? = some g ∧
          fi.blocks = (deltaBlocksOf resample cthr ref g).map (addZ z) ∧
          fi.diffRatioVal = (diffResultOf resample ref g cthr).diffRatioVal ∧
          (mode = .IFRAME →
            (∃ j fj, j < k ∧
              (processFramesAux resample interval dthr cthr mode i st fs)[j]? = some fj ∧
              fj.frameType = .I_FRAME ∧ fs[j]? = some ref ∧
              ∀ m fm, j < m → m < k →
                (processFramesAux resample interval dthr cthr mode i st fs)[m]? = some fm →
                fm.frameType ≠ .I_FRAME) ∨
            (st.lastIFrame = some ref ∧
              ∀ m fm, m < k →
                (processFramesAux resample interval dthr cthr mode i st fs)[m]? = some fm →
                fm.frameType ≠ .I_FRAME)) ∧
          (mode = .PREVIOUS →
            (1 ≤ k → fs[k - 1]? = some ref) ∧ (k = 0 → st.prevFrame = some ref))) := by
  intro fs
  induction fs with
  | nil =>
    intro i st _ _ k fi hk
    simp [processFramesAux] at hk
  | cons g rest ih =>
    intro i st h1 h2 k fi hk
    by_cases hI : i = 0 ∨ i % interval = 0 ∨ st.lastIFrame.isNone = true
    · -- scheduled keyframe branch
      have hout : processFramesAux resample interval dthr cthr mode i st (g :: rest) =
          (⟨i, .I_FRAME, 1, (processAndGroupImage g .area).map (addZ st.maxZ), [], []⟩ :
            FrameInfo) ::
            processFramesAux resample interval dthr cthr mode (i + 1)
              ⟨some g, some g,
                ZVal.add (maxZOf ((processAndGroupImage g .area).map (addZ st.maxZ)))
                  (.int 1)⟩ rest := by
        simp only [processFramesAux, stepFrame_keyframe resample interval dthr cthr mode i g st hI]
      rw [hout] at hk ⊢
      generalize hB : (processAndGroupImage g .area).map (addZ st.maxZ) = B at hk ⊢
      have hcond : i + 0 = 0 ∨ (i + 0) % interval = 0 := by
        rcases hI with h | h | h
        · exact Or.inl (by omega)
        · rw [Nat.add_zero]; exact Or.inr h
        · exact Or.inl (by rw [h1 (Option.isNone_iff_eq_none.1 h)])
      cases k with
      | zero =>
        rw [List.getElem?_cons_zero] at hk
        obtain rfl := Option.some_inj.1 hk
        refine ⟨(Nat.add_zero i).symm, ?_, ?_, ?_⟩
        · rw [if_pos hcond]
        · intro _
          exact ⟨st.maxZ, g, by rw [List.getElem?_cons_zero], hB.symm⟩
        · intro hP
          simp at hP
      | succ k =>
        rw [List.getElem?_cons_succ] at hk
        obtain ⟨c1, c2, c3, c4⟩ := ih (i + 1)
          ⟨some g, some g, ZVal.add (maxZOf B) (.int 1)⟩
          (by intro h; simp at h) (by intro h; simp at h) k fi hk
        refine ⟨by rw [c1]; omega, ?_, ?_, ?_⟩
        · have he : i + 1 + k = i + (k + 1) := by omega
          rw [he] at c2
          exact c2
        · intro hIF
          obtain ⟨z, g', hg', hb⟩ := c3 hIF
          exact ⟨z, g', by rw [List.getElem?_cons_succ]; exact hg', hb⟩
        · intro hPF
          obtain ⟨z, ref, g', hg', hb, hr, hclI, hclP⟩ := c4 hPF
          refine ⟨z, ref, g', by rw [List.getElem?_cons_succ]; exact hg', hb, hr, ?_, ?_⟩
          · intro hmode
            rcases hclI hmode with ⟨j, fj, hj, houtj, htj, hfsj, hbet⟩ | ⟨heq, hnone2⟩
            · left
              refine ⟨j + 1, fj, by omega, ?_, htj, ?_, ?_⟩
              · rw [List.getElem?_cons_succ]; exact houtj
              · rw [List.getElem?_cons_succ]; exact hfsj
              · intro m fm hm1 hm2 hm3
                cases m with
                | zero => omega
                | succ m' =>
                  rw [List.getElem?_cons_succ] at hm3
                  exact hbet m' fm (by omega) (by omega) hm3
            · left
              have hg : g = ref := Option.some_inj.1 heq
              refine ⟨0, ⟨i, .I_FRAME, 1, B, [], []⟩, by omega, ?_, rfl, ?_, ?_⟩
              · exact List.getElem?_cons_zero
              · rw [List.getElem?_cons_zero]
                exact congrArg some hg
              · intro m fm hm1 hm2 hm3
                cases m with
                | zero => omega
                | succ m' =>
                  rw [List.getElem?_cons_succ] at hm3
                  exact hnone2 m' fm (by omega) hm3
          · intro hmode
            obtain ⟨ha, hb0⟩ := hclP hmode
            refine ⟨?_, by omega⟩
            intro _
            simp only [Nat.add_sub_cancel]
            by_cases hk0 : k = 0
            · subst hk0
              have hpf := hb0 rfl
              have hg : g = ref := Option.some_inj.1 hpf
              rw [List.getElem?_cons_zero]
              exact congrArg some hg
            · obtain ⟨k', rfl⟩ : ∃ k', k = k' + 1 := ⟨k - 1, by omega⟩
              have hres := ha (by omega)
              rw [List.getElem?_cons_succ]
              simpa using hres
    · -- non-scheduled: diff against the reference
      have hIn := hI
      push_neg at hIn
      obtain ⟨hi0, himod, hnone⟩ := hIn
      have hLex : ∃ L, st.lastIFrame = some L := by
        rcases hcase : st.lastIFrame with _ | L
        · exact absurd (by rw [hcase]; rfl) hnone
        · exact ⟨L, rfl⟩
      obtain ⟨L, hL⟩ := hLex
      have hPvex : ∃ Pv, st.prevFrame = some Pv := by
        rcases hcase : st.prevFrame with _ | Pv
        · exact absurd (h2 hcase) hi0
        · exact ⟨Pv, rfl⟩
      obtain ⟨Pv, hPvv⟩ := hPvex
      have hcond : ¬ (i + 0 = 0 ∨ (i + 0) % interval = 0) := by
        rw [Nat.add_zero]
        rintro (h | h)
        · exact hi0 h
        · exact himod h
      by_cases hthr : dthr ≤ (diffResultOf resample (refFrame mode st g) g cthr).diffRatioVal
      · -- promoted keyframe
        have hout : processFramesAux resample interval dthr cthr mode i st (g :: rest) =
            (⟨i, .I_FRAME, (diffResultOf resample (refFrame mode st g) g cthr).diffRatioVal,
              (processAndGroupImage g .area).map (addZ st.maxZ), [], []⟩ : FrameInfo) ::
              processFramesAux resample interval dthr cthr mode (i + 1)
                ⟨some g, some g,
                  ZVal.add (maxZOf ((processAndGroupImage g .area).map (addZ st.maxZ)))
                    (.int 1)⟩ rest := by
          simp only [processFramesAux,
            stepFrame_promote resample interval dthr cthr mode i g st hI hthr]
        rw [hout] at hk ⊢
        generalize hB : (processAndGroupImage g .area).map (addZ st.maxZ) = B at hk ⊢
        cases k with
        | zero =>
          rw [List.getElem?_cons_zero] at hk
          obtain rfl := Option.some_inj.1 hk
          refine ⟨(Nat.add_zero i).symm, ?_, ?_, ?_⟩
          · rw [if_neg hcond, if_pos hthr]
          · intro _
            exact ⟨st.maxZ, g, by rw [List.getElem?_cons_zero], hB.symm⟩
          · intro hP
            simp at hP
        | succ k =>
          rw [List.getElem?_cons_succ] at hk
          obtain ⟨c1, c2, c3, c4⟩ := ih (i + 1)
            ⟨some g, some g, ZVal.add (maxZOf B) (.int 1)⟩
            (by intro h; simp at h) (by intro h; simp at h) k fi hk
          refine ⟨by rw [c1]; omega, ?_, ?_, ?_⟩
          · have he : i + 1 + k = i + (k + 1) := by omega
            rw [he] at c2
            exact c2
          · intro hIF
            obtain ⟨z, g', hg', hb⟩ := c3 hIF
            exact ⟨z, g', by rw [List.getElem?_cons_succ]; exact hg', hb⟩
          · intro hPF
            obtain ⟨z, ref, g', hg', hb, hr, hclI, hclP⟩ := c4 hPF
            refine ⟨z, ref, g', by rw [List.getElem?_cons_succ]; exact hg', hb, hr, ?_, ?_⟩
            · intro hmode
              rcases hclI hmode with ⟨j, fj, hj, houtj, htj, hfsj, hbet⟩ | ⟨heq, hnone2⟩
              · left
                refine ⟨j + 1, fj, by omega, ?_, htj, ?_, ?_⟩
                · rw [List.getElem?_cons_succ]; exact houtj
                · rw [List.getElem?_cons_succ]; exact hfsj
                · intro m fm hm1 hm2 hm3
                  cases m with
                  | zero => omega
                  | succ m' =>
                    rw [List.getElem?_cons_succ] at hm3
                    exact hbet m' fm (by omega) (by omega) hm3
              · left
                have hg : g = ref := Option.some_inj.1 heq
                refine ⟨0,
                  ⟨i, .I_FRAME,
                    (diffResultOf resample (refFrame mode st g) g cthr).diffRatioVal,
                    B, [], []⟩,
                  by omega, ?_, rfl, ?_, ?_⟩
                · exact List.getElem?_cons_zero
                · rw [List.getElem?_cons_zero]
                  exact congrArg some hg
                · intro m fm hm1 hm2 hm3
                  cases m with
                  | zero => omega
                  | succ m' =>
                    rw [List.getElem?_cons_succ] at hm3
                    exact hnone2 m' fm (by omega) hm3
            · intro hmode
              obtain ⟨ha, hb0⟩ := hclP hmode
              refine ⟨?_, by omega⟩
              intro _
              simp only [Nat.add_sub_cancel]
              by_cases hk0 : k = 0
              · subst hk0
                have hpf := hb0 rfl
                have hg : g = ref := Option.some_inj.1 hpf
                rw [List.getElem?_cons_zero]
                exact congrArg some hg
              · obtain ⟨k', rfl⟩ : ∃ k', k = k' + 1 := ⟨k - 1, by omega⟩
                have hres := ha (by omega)
                rw [List.getElem?_cons_succ]
                simpa using hres
      · -- delta frame
        have hout : processFramesAux resample interval dthr cthr mode i st (g :: rest) =
            (⟨i, .P_FRAME, (diffResultOf resample (refFrame mode st g) g cthr).diffRatioVal,
              (deltaBlocksOf resample cthr (refFrame mode st g) g).map (addZ st.maxZ),
              [], []⟩ : FrameInfo) ::
              processFramesAux resample interval dthr cthr mode (i + 1)
                ⟨st.lastIFrame, some g,
                  if ((deltaBlocksOf resample cthr (refFrame mode st g) g).map
                      (addZ st.maxZ)).length ≠ 0
                  then ZVal.add (maxZOf ((deltaBlocksOf resample cthr (refFrame mode st g) g).map
                    (addZ st.maxZ))) (.int 1)
                  else st.maxZ⟩ rest := by
          simp only [processFramesAux,
            stepFrame_delta resample interval dthr cthr mode i g st hI hthr]
        rw [hout] at hk ⊢
        generalize hB : (deltaBlocksOf resample cthr (refFrame mode st g) g).map (addZ st.maxZ)
          = B at hk ⊢
        cases k with
        | zero =>
          rw [List.getElem?_cons_zero] at hk
          obtain rfl := Option.some_inj.1 hk
          refine ⟨(Nat.add_zero i).symm, ?_, ?_, ?_⟩
          · rw [if_neg hcond, if_neg hthr]
          · intro hIF
            simp at hIF
          · intro _
            refine ⟨st.maxZ, refFrame mode st g, g, by rw [List.getElem?_cons_zero], hB.symm,
              rfl, ?_, ?_⟩
            · intro hmode
              right
              subst hmode
              refine ⟨?_, by intro m fm hm; omega⟩
              show st.lastIFrame = some (refFrame .IFRAME st g)
              rw [refFrame]
              simp only [hL, Option.getD_some]
            · intro hmode
              subst hmode
              refine ⟨by intro h0; omega, ?_⟩
              intro _
              show st.prevFrame = some (refFrame .PREVIOUS st g)
              rw [refFrame]
              simp only [hPvv, Option.getD_some]
        | succ k =>
          rw [List.getElem?_cons_succ] at hk
          obtain ⟨c1, c2, c3, c4⟩ := ih (i + 1)
            ⟨st.lastIFrame, some g,
              if B.length ≠ 0 then ZVal.add (maxZOf B) (.int 1) else st.maxZ⟩
            (by intro h; rw [hL] at h; cases h) (by intro h; cases h) k fi hk
          refine ⟨by rw [c1]; omega, ?_, ?_, ?_⟩
          · have he : i + 1 + k = i + (k + 1) := by omega
            rw [he] at c2
            exact c2
          · intro hIF
            obtain ⟨z, g', hg', hb⟩ := c3 hIF
            exact ⟨z, g', by rw [List.getElem?_cons_succ]; exact hg', hb⟩
          · intro hPF
            obtain ⟨z, ref, g', hg', hb, hr, hclI, hclP⟩ := c4 hPF
            refine ⟨z, ref, g', by rw [List.getElem?_cons_succ]; exact hg', hb, hr, ?_, ?_⟩
            · intro hmode
              rcases hclI hmode with ⟨j, fj, hj, houtj, htj, hfsj, hbet⟩ | ⟨heq, hnone2⟩
              · left
                refine ⟨j + 1, fj, by omega, ?_, htj, ?_, ?_⟩
                · rw [List.getElem?_cons_succ]; exact houtj
                · rw [List.getElem?_cons_succ]; exact hfsj
                · intro m fm hm1 hm2 hm3
                  cases m with
                  | zero => omega
                  | succ m' =>
                    rw [List.getElem?_cons_succ] at hm3
                    exact hbet m' fm (by omega) (by omega) hm3
              · right
                refine ⟨heq, ?_⟩
                intro m fm hm1 hm3
                cases m with
                | zero =>
                  rw [List.getElem?_cons_zero] at hm3
                  obtain rfl := Option.some_inj.1 hm3
                  intro habs
                  simp at habs
                | succ m' =>
                  rw [List.getElem?_cons_succ] at hm3
                  exact hnone2 m' fm (by omega) hm3
            · intro hmode
              obtain ⟨ha, hb0⟩ := hclP hmode
              refine ⟨?_, by omega⟩
              intro _
              simp only [Nat.add_sub_cancel]
              by_cases hk0 : k = 0
              · subst hk0
                have hpf := hb0 rfl
                have hg : g = ref := Option.some_inj.1 hpf
                rw [List.getElem?_cons_zero]
                exact congrArg some hg
              · obtain ⟨k', rfl⟩ : ∃ k', k = k' + 1 := ⟨k - 1, by omega⟩
                have hres := ha (by omega)
                rw [List.getElem?_cons_succ]
                simpa using hres

/-! ## Equality of the pipeline with its evaluable form -/

theorem processAndGroupImageEval_eq (g : PixelGrid) (sb : SortBy) :
    processAndGroupImage g sb = processAndGroupImageEval g sb :=
  processAndGroupImage_eval g sb

theorem deltaBlocksOf_eval (resample : PixelGrid → ℕ → ℕ → ℕ → Fin 256) (cthr : ℤ)
    (ref g : PixelGrid) :
    deltaBlocksOf resample cthr ref g = deltaBlocksOfEval resample cthr ref g := by
  rw [deltaBlocksOf, deltaBlocksOfEval, processAndGroupImageEval_eq]

theorem stepFrame_eval (resample : PixelGrid → ℕ → ℕ → ℕ → Fin 256)
    (interval : ℕ) (dthr : ℚ) (cthr : ℤ) (mode : DiffMode) (i : ℕ) (g : PixelGrid)
    (st : VidState) :
    stepFrame resample interval dthr cthr mode i g st =
      stepFrameEval resample interval dthr cthr mode i g st := by
  simp only [stepFrame, stepFrameEval, processAndGroupImageEval_eq, deltaBlocksOf_eval]

theorem processFramesAux_eval (resample : PixelGrid → ℕ → ℕ → ℕ → Fin 256)
    (interval : ℕ) (dthr : ℚ) (cthr : ℤ) (mode : DiffMode) :
    ∀ (fs : List PixelGrid) (i : ℕ) (st : VidState),
      processFramesAux resample interval dthr cthr mode i st fs =
        processFramesAuxEval resample interval dthr cthr mode i st fs := by
  intro fs
  induction fs with
  | nil => intro i st; rfl
  | cons g rest ih =>
    intro i st
    simp only [processFramesAux, processFramesAuxEval, stepFrame_eval, ih]

theorem processVideoFrames_eval (resample : PixelGrid → ℕ → ℕ → ℕ → Fin 256)
    (frames : List PixelGrid) (interval : ℕ) (dthr : ℚ) (cthr : ℤ) (mode : DiffMode) :
    processVideoFrames resample frames interval dthr cthr mode =
      processFramesAuxEval resample interval dthr cthr mode 0 ⟨none, none, .int 0⟩ frames := by
  rw [processVideoFrames, processFramesAux_eval]

/-! ## Occlusion-scan characterization -/

theorem mem_intRange {lo hi x : ℤ} : x ∈ intRange lo hi ↔ lo ≤ x ∧ x ≤ hi := by
  rw [intRange]
  simp only [List.mem_map, List.mem_range]
  constructor
  · rintro ⟨k, hk, rfl⟩
    omega
  · intro h
    exact ⟨(x - lo).toNat, by omega, by omega⟩

theorem mem_scanFold (P : Block × Tag → Bool) :
    ∀ (l : List (Block × Tag)) (acc : List Tag) (t : Tag),
      (t ∈ l.foldl
          (fun acc tgt =>
            if P tgt then if tgt.2 ∈ acc then acc else acc ++ [tgt.2] else acc) acc) ↔
        t ∈ acc ∨ ∃ tgt ∈ l, P tgt = true ∧ tgt.2 = t := by
  intro l
  induction l with
  | nil => intro acc t; simp
  | cons a rest ih =>
    intro acc t
    rw [List.foldl_cons, ih]
    by_cases hP : P a = true
    · rw [if_pos hP]
      by_cases hmem : a.2 ∈ acc
      · rw [if_pos hmem]
        simp only [List.mem_cons]
        constructor
        · rintro (h | ⟨tgt, h1, h2, h3⟩)
          · exact Or.inl h
          · exact Or.inr ⟨tgt, Or.inr h1, h2, h3⟩
        · rintro (h | ⟨tgt, (rfl | h1), h2, h3⟩)
          · exact Or.inl h
          · exact Or.inl (h3 ▸ hmem)
          · exact Or.inr ⟨tgt, h1, h2, h3⟩
      · rw [if_neg hmem]
        simp only [List.mem_append, List.mem_cons, List.not_mem_nil, or_false]
        constructor
        · rintro ((h | h) | ⟨tgt, h1, h2, h3⟩)
          · exact Or.inl h
          · exact Or.inr ⟨a, Or.inl rfl, hP, h.symm⟩
          · exact Or.inr ⟨tgt, Or.inr h1, h2, h3⟩
        · rintro (h | ⟨tgt, (rfl | h1), h2, h3⟩)
          · exact Or.inl (Or.inl h)
          · exact Or.inl (Or.inr h3.symm)
          · exact Or.inr ⟨tgt, h1, h2, h3⟩
    · rw [if_neg hP]
      simp only [List.mem_cons]
      constructor
      · rintro (h | ⟨tgt, h1, h2, h3⟩)
        · exact Or.inl h
        · exact Or.inr ⟨tgt, Or.inr h1, h2, h3⟩
      · rintro (h | ⟨tgt, (rfl | h1), h2, h3⟩)
        · exact Or.inl h
        · exact absurd h2 hP
        · exact Or.inr ⟨tgt, h1, h2, h3⟩

theorem sortedItems_mem {frames : List FrameInfo} {curIdx : ℕ} {it : Block × Tag} :
    it ∈ sortedItems frames curIdx ↔ it ∈ scannedItems frames curIdx := by
  rw [sortedItems]
  exact (stableSortBy_perm _ _).mem_iff

theorem cellItems_mem {frames : List FrameInfo} {curIdx : ℕ} {gx gy : ℤ}
    {it : Block × Tag} :
    it ∈ cellItems frames curIdx gx gy ↔
      it ∈ scannedItems frames curIdx ∧
        Int.fdiv it.1.minX 10 = gx ∧ Int.fdiv it.1.minY 10 = gy := by
  rw [cellItems, List.mem_filter, sortedItems_mem]
  simp only [decide_eq_true_eq]

theorem coveredB_iff {frames : List FrameInfo} {curIdx : ℕ} {tgt : Block × Tag} :
    coveredB frames curIdx tgt = true ↔
      ∃ cand ∈ scannedItems frames curIdx, originInSpan tgt.1 cand.1 ∧
        (ZVal.blt tgt.1.zIndex cand.1.zIndex && isBlockFullyCovered tgt.1 cand.1) = true := by
  rw [coveredB]
  simp only [List.any_eq_true]
  constructor
  · rintro ⟨gx, hgx, gy, hgy, cand, hcand, hcc⟩
    obtain ⟨hmem, hx, hy⟩ := cellItems_mem.1 hcand
    subst hx
    subst hy
    obtain ⟨hx1, hx2⟩ := mem_intRange.1 hgx
    obtain ⟨hy1, hy2⟩ := mem_intRange.1 hgy
    exact ⟨cand, hmem, ⟨hx1, hx2, hy1, hy2⟩, hcc⟩
  · rintro ⟨cand, hmem, ⟨h1, h2, h3, h4⟩, hcc⟩
    exact ⟨Int.fdiv cand.1.minX 10, mem_intRange.2 ⟨h1, h2⟩,
      Int.fdiv cand.1.minY 10, mem_intRange.2 ⟨h3, h4⟩,
      cand, cellItems_mem.2 ⟨hmem, rfl, rfl⟩, hcc⟩

theorem mem_scan3D {frames : List FrameInfo} {curIdx : ℕ} {t : Tag} :
    t ∈ scan3DCoveredBlocks frames curIdx ↔
      ¬ (frames.drop curIdx).length < 2 ∧
        ∃ tgt ∈ scannedItems frames curIdx,
          coveredB frames curIdx tgt = true ∧ tgt.2 = t := by
  rw [scan3DCoveredBlocks]
  by_cases hlen : (frames.drop curIdx).length < 2
  · rw [if_pos hlen]
    simp only [List.not_mem_nil, false_iff]
    rintro ⟨h, -⟩
    exact h hlen
  · rw [if_neg hlen]
    rw [mem_scanFold]
    simp only [List.not_mem_nil, false_or, List.mem_reverse]
    constructor
    · rintro ⟨tgt, h1, h2, h3⟩
      exact ⟨hlen, tgt, sortedItems_mem.1 h1, h2, h3⟩
    · rintro ⟨-, tgt, h1, h2, h3⟩
      exact ⟨tgt, sortedItems_mem.2 h1, h2, h3⟩

/-! ## Claim theorems -/

/-- Claim C1: for every pixel grid and sort mode, the block list produced by
processAndGroupImage partitions exactly the opaque pixels: the sum of all
blocks' areas equals the number of pixels with nonzero alpha, no coordinate
appears in two different blocks, and no pixel with alpha 0 appears in any
block's pixel set. -/
theorem processAndGroupImage_partitions_opaque (g : PixelGrid) (sb : SortBy) :
    ((processAndGroupImage g sb).map (·.area)).sum = (solidCoords g).length ∧
    BlocksDisjoint (processAndGroupImage g sb) ∧
    (∀ b ∈ processAndGroupImage g sb, ∀ p ∈ b.pixels, alphaOf g p ≠ 0) := by
  obtain ⟨h1, h2, h3, h4, h5⟩ := processAndGroupImage_partitions g sb
  refine ⟨?_, h2, ?_⟩
  · rw [partitions_sum_areas ⟨h1, h2, h3, h4, h5⟩, solidFinset,
      List.toFinset_card_of_nodup (solidCoords_nodup g)]
  · intro b hb p hp
    have hm := h3 b hb p hp
    rw [solidFinset, List.mem_toFinset] at hm
    exact solidCoords_alpha hm

/-- Claim C2: for every block list with pairwise-disjoint pixel sets, the
merge optimizer preserves the union of all blocks' pixel coordinate sets and
never increases the block count. -/
theorem localSearchOptimization_union_preserved (bs : List Block) (n : ℕ)
    (_h : BlocksDisjoint bs) :
    pixelUnion (localSearchOptimization bs n) = pixelUnion bs ∧
    (localSearchOptimization bs n).length ≤ bs.length :=
  ⟨localSearchOptimization_pixelUnion bs n, localSearchOptimization_length_le bs n⟩

/-- Witness for claim C2 at a concrete disjoint two-block input. -/
theorem localSearchOptimization_union_preserved_witness :
    BlocksDisjoint demoBlocks ∧
      (pixelUnion (localSearchOptimization demoBlocks 1000) = pixelUnion demoBlocks ∧
        (localSearchOptimization demoBlocks 1000).length ≤ demoBlocks.length) :=
  ⟨by decide, localSearchOptimization_union_preserved demoBlocks 1000 (by decide)⟩

/-- Counterexample to claim C3 as stated: covDemo is drawn strictly later
than tgtDemo and its pixel set contains tgtDemo's whole pixel set, both
blocks lie in the scanned two-frame window, yet the scan marks nothing
covered, because covDemo is registered only under the grid cell of its
bounding-box origin (0, 0), which tgtDemo's bounding box never spans. -/
theorem scan3D_misses_spanning_cover :
    isBlockFullyCovered tgtDemo covDemo = true ∧
    ZVal.blt tgtDemo.zIndex covDemo.zIndex = true ∧
    (tgtDemo, (⟨0, false⟩ : Tag)) ∈ scannedItems scanFrames1 0 ∧
    (covDemo, (⟨1, false⟩ : Tag)) ∈ scannedItems scanFrames1 0 ∧
    scan3DCoveredBlocks scanFrames1 0 = [] := by decide

/-- Claim C3 amended: a scanned block whose pixel set is contained in a
later-drawn scanned block is marked covered when the covering block's
bounding-box origin cell lies within the cells spanned by the target's
bounding box (the original claim omitted that origin condition); and every
tag the scan emits comes from a scanned target with such a later-drawn,
fully covering candidate, so a block with no later-drawn block registered in
any spanned cell is never marked covered. -/
theorem scan3D_covered_characterization :
    (∀ (frames : List FrameInfo) (curIdx : ℕ) (tgt : Block × Tag),
      2 ≤ (frames.drop curIdx).length →
      tgt ∈ scannedItems frames curIdx →
      (∃ cand ∈ scannedItems frames curIdx, originInSpan tgt.1 cand.1 ∧
        ZVal.blt tgt.1.zIndex cand.1.zIndex = true ∧
        isBlockFullyCovered tgt.1 cand.1 = true) →
      tgt.2 ∈ scan3DCoveredBlocks frames curIdx) ∧
    (∀ (frames : List FrameInfo) (curIdx : ℕ) (t : Tag),
      t ∈ scan3DCoveredBlocks frames curIdx →
      ∃ tgt ∈ scannedItems frames curIdx, tgt.2 = t ∧
        ∃ cand ∈ scannedItems frames curIdx, originInSpan tgt.1 cand.1 ∧
          ZVal.blt tgt.1.zIndex cand.1.zIndex = true ∧
          isBlockFullyCovered tgt.1 cand.1 = true) := by
  constructor
  · intro frames curIdx tgt hlen hmem hex
    rw [mem_scan3D]
    refine ⟨by omega, tgt, hmem, ?_, rfl⟩
    rw [coveredB_iff]
    obtain ⟨cand, hc1, hc2, hc3, hc4⟩ := hex
    exact ⟨cand, hc1, hc2, by rw [Bool.and_eq_true]; exact ⟨hc3, hc4⟩⟩
  · intro frames curIdx t ht
    rw [mem_scan3D] at ht
    obtain ⟨-, tgt, h1, h2, h3⟩ := ht
    rw [coveredB_iff] at h2
    obtain ⟨cand, hc1, hc2, hc3⟩ := h2
    rw [Bool.and_eq_true] at hc3
    exact ⟨tgt, h1, h3, cand, hc1, hc2, hc3.1, hc3.2⟩

/-- Witness for claim C3's amended completeness direction: with the covering
block's origin inside the target's span, the tag is emitted. -/
theorem scan3D_covered_characterization_witness :
    2 ≤ (scanFrames2.drop 0).length ∧
    (tgtDemo, (⟨0, false⟩ : Tag)) ∈ scannedItems scanFrames2 0 ∧
    (∃ cand ∈ scannedItems scanFrames2 0, originInSpan tgtDemo cand.1 ∧
      ZVal.blt tgtDemo.zIndex cand.1.zIndex = true ∧
      isBlockFullyCovered tgtDemo cand.1 = true) ∧
    (⟨0, false⟩ : Tag) ∈ scan3DCoveredBlocks scanFrames2 0 :=
  ⟨by decide, by decide, by decide,
    scan3D_covered_characterization.1 scanFrames2 0 (tgtDemo, ⟨0, false⟩) (by decide)
      (by decide) (by decide)⟩

/-- Claim C4: in processVideoFrames, frame 0 is classified I_FRAME, every
frame whose index is a multiple of the interval is classified I_FRAME
regardless of its diff, any other frame is I_FRAME exactly when its computed
diff ratio reaches the threshold, promoted frames are segmented from the
frame itself, and frames below the threshold are P_FRAMEs segmented from the
sparse diff image against the governing reference frame. -/
theorem processVideoFrames_classification
    (resample : PixelGrid → ℕ → ℕ → ℕ → Fin 256) (frames : List PixelGrid)
    (interval : ℕ) (dthr : ℚ) (cthr : ℤ) (mode : DiffMode) (k : ℕ) (fi : FrameInfo)
    (hk : (processVideoFrames resample frames interval dthr cthr mode)[k]? = some fi) :
    fi.frameNumber = k ∧
    fi.frameType = (if k = 0 ∨ k % interval = 0 then FrameType.I_FRAME
      else if dthr ≤ fi.diffRatioVal then FrameType.I_FRAME else FrameType.P_FRAME) ∧
    (fi.frameType = .I_FRAME → KeyframeProvenance frames k fi) ∧
    (fi.frameType = .P_FRAME →
      DeltaProvenance resample cthr mode frames
        (processVideoFrames resample frames interval dthr cthr mode) k fi) := by
  rw [processVideoFrames] at hk
  obtain ⟨c1, c2, c3, c4⟩ :=
    processFramesAux_spec resample interval dthr cthr mode frames 0 ⟨none, none, .int 0⟩
      (fun _ => rfl) (fun _ => rfl) k fi hk
  rw [Nat.zero_add] at c1 c2
  refine ⟨c1, c2, ?_, ?_⟩
  · intro hI
    obtain ⟨z, g, hg, hb⟩ := c3 hI
    exact ⟨z, g, hg, hb⟩
  · intro hP
    obtain ⟨z, ref, g, hg, hb, hr, hclI, hclP⟩ := c4 hP
    refine ⟨z, ref, g, hg, hb, hr, ?_, ?_⟩
    · intro hmode
      rcases hclI hmode with ⟨j, fj, hj, houtj, htj, hfsj, hbet⟩ | ⟨heq, -⟩
      · rw [processVideoFrames]
        exact ⟨j, fj, hj, houtj, htj, hfsj, hbet⟩
      · simp at heq
    · intro hmode h1k
      exact (hclP hmode).1 h1k

/-- Witness for claim C4 on a concrete one-frame run: frame 0 is an I_FRAME
segmented from the frame itself. -/
theorem processVideoFrames_classification_witness :
    ∃ fi, (processVideoFrames cRes [gRed] 30 (1/2) 10 .IFRAME)[0]? = some fi ∧
      fi.frameNumber = 0 ∧ fi.frameType = .I_FRAME ∧ KeyframeProvenance [gRed] 0 fi := by
  have hfi : (processVideoFrames cRes [gRed] 30 (1/2) 10 .IFRAME)[0]? =
      some ⟨0, .I_FRAME, 1, (processAndGroupImage gRed .area).map (addZ (.int 0)),
        [], []⟩ := by
    simp only [processVideoFrames, processFramesAux,
      stepFrame_keyframe cRes 30 (1/2) 10 .IFRAME 0 gRed ⟨none, none, .int 0⟩ (Or.inl rfl),
      List.getElem?_cons_zero]
  obtain ⟨h1, h2, h3, h4⟩ :=
    processVideoFrames_classification cRes [gRed] 30 (1/2) 10 .IFRAME 0 _ hfi
  have ht : FrameInfo.frameType
      ⟨0, .I_FRAME, 1, (processAndGroupImage gRed .area).map (addZ (.int 0)), [], []⟩ =
      .I_FRAME := rfl
  exact ⟨_, hfi, h1, ht, h3 ht⟩

/-- Claim C5 (refuted as stated, recording the source bug): on a frame
sequence starting with a fully transparent frame, the unguarded
maxZIndexUsed update of the keyframe branch (Math.max of an empty list is
negative infinity) poisons every later frame's zIndex values with negative
infinity, and the cross-frame strict zIndex ordering fails. -/
theorem zIndex_not_strict_across_frames :
    ((processVideoFrames cRes [gT, gRed, gRed] 1 (1/4) 10 .IFRAME).map
        fun fi => fi.blocks.map fun b => b.zIndex) =
      [[], [ZVal.negInf], [ZVal.negInf]] ∧
    ¬ zStrictAcrossFrames (processVideoFrames cRes [gT, gRed, gRed] 1 (1/4) 10 .IFRAME) := by
  rw [processVideoFrames_eval]
  decide

/-- Claim C6: for a fixed frame pair, the diff is monotone in the threshold:
lowering colorThreshold never decreases diffRatio. -/
theorem generateDiffImage_threshold_mono
    (resample : PixelGrid → ℕ → ℕ → ℕ → Fin 256) (prev current : PixelGrid)
    {t1 t2 : ℤ} (h : t1 ≤ t2) (r1 r2 : DiffResult)
    (h1 : generateDiffImage resample prev current t1 = .ok r1)
    (h2 : generateDiffImage resample prev current t2 = .ok r2) :
    r2.diffRatioVal ≤ r1.diffRatioVal := by
  rw [generateDiffImage] at h1 h2
  injection h1 with h1
  injection h2 with h2
  subst h1
  subst h2
  exact diffRatio_mono resample prev current h

/-- Witness for claim C6 at thresholds 0 and 300 on a red/blue pair. -/
theorem generateDiffImage_threshold_mono_witness :
    (0 : ℤ) ≤ 300 ∧
      (diffResultOf cRes gRed gBlue 300).diffRatioVal ≤
        (diffResultOf cRes gRed gBlue 0).diffRatioVal :=
  ⟨by decide, generateDiffImage_threshold_mono cRes gRed gBlue (by decide)
    (diffResultOf cRes gRed gBlue 0) (diffResultOf cRes gRed gBlue 300) rfl rfl⟩

/-- Claim C7: on two identical frames and any threshold at least 0 the diff
succeeds with diffRatio 0 and an empty diff pixel map. -/
theorem generateDiffImage_identical (resample : PixelGrid → ℕ → ℕ → ℕ → Fin 256)
    (g : PixelGrid) {t : ℤ} (ht : 0 ≤ t) :
    ∃ r, generateDiffImage resample g g t = .ok r ∧
      r.diffRatioVal = 0 ∧ r.diffPixels = [] :=
  ⟨diffResultOf resample g g t, rfl, diffRatio_self resample g ht,
    diffPixels_self resample g ht⟩

/-- Witness for claim C7 at threshold 3 on the red frame. -/
theorem generateDiffImage_identical_witness :
    (0 : ℤ) ≤ 3 ∧ ∃ r, generateDiffImage cRes gRed gRed 3 = .ok r ∧
      r.diffRatioVal = 0 ∧ r.diffPixels = [] :=
  ⟨by decide, generateDiffImage_identical cRes gRed (by decide)⟩

/-- Claim C8: the merge optimizer terminates on every finite input: a
successful single merge strictly reduces the block count, the phase-1 greedy
loop reaches a fixpoint on which no merge is possible, and any fuel beyond
the input length gives that same fixpoint (phase 2 is a fold over a fixed
iteration list and terminates by construction). -/
theorem optimizer_terminates :
    (∀ bs bs' : List Block, tryMergeOperation bs = some bs' → bs'.length < bs.length) ∧
    (∀ bs : List Block, tryMergeOperation (greedyMergeLoop bs) = none) ∧
    (∀ (n : ℕ) (bs : List Block), bs.length < n → greedyAux n bs = greedyMergeLoop bs) := by
  refine ⟨fun bs bs' h => tryMergeOperation_length h, greedyMergeLoop_fix, ?_⟩
  intro n bs h
  rw [greedyMergeLoop]
  exact greedyAux_fuel_irrel (bs.length + 1) n bs (Nat.lt_succ_self _) h

/-- Witness for claim C8 on a concrete mergeable two-block input. -/
theorem optimizer_terminates_witness :
    tryMergeOperation demoBlocks = some [mergeBlocks bDemo1 bDemo2] ∧
    ([mergeBlocks bDemo1 bDemo2] : List Block).length < demoBlocks.length ∧
    tryMergeOperation (greedyMergeLoop demoBlocks) = none ∧
    demoBlocks.length < 3 ∧ greedyAux 3 demoBlocks = greedyMergeLoop demoBlocks :=
  ⟨by decide, optimizer_terminates.1 demoBlocks [mergeBlocks bDemo1 bDemo2] (by decide),
    optimizer_terminates.2.1 demoBlocks,
    by decide, optimizer_terminates.2.2 3 demoBlocks (by decide)⟩

/-- Counterexample to claim C9 as stated: on reference and candidate frames
of different dimensions the diff does not fail with a dimension error: it
returns ok, silently rescaling the candidate. -/
theorem generateDiffImage_no_dimension_error :
    gWide.width ≠ gRed.width ∧
    generateDiffImage cRes gRed gWide 0 = .ok (diffResultOf cRes gRed gWide 0) ∧
    generateDiffImage cRes gRed gWide 0 ≠ .error DiffError.dimensionMismatch :=
  ⟨by decide, rfl, fun h => Except.noConfusion h⟩

/-- Claim C9 amended: the diff never aborts on a dimension mismatch; it
always returns ok, with the candidate drawn onto a canvas of the reference
frame's dimensions, so the result carries the reference's width and
height. -/
theorem generateDiffImage_total_reference_dims
    (resample : PixelGrid → ℕ → ℕ → ℕ → Fin 256) (prev current : PixelGrid) (t : ℤ) :
    ∃ r, generateDiffImage resample prev current t = .ok r ∧
      r.width = prev.width ∧ r.height = prev.height :=
  ⟨diffResultOf resample prev current t, rfl, rfl, rfl⟩

/-- Claim C10: the full two-phase optimizer equals phase 1 run to its
fixpoint followed by dense zIndex reassignment, for every input and every
iteration budget: phase 2 never changes the block list. -/
theorem localSearchOptimization_refines_phase1 (bs : List Block) (n : ℕ) :
    localSearchOptimization bs n = phase1ThenReindex bs :=
  localSearchOptimization_eq bs n
